import Mathlib

/-!
A verification development for the gitrepublic-cli core: the error-message
sanitizer, private-key decoding, the concurrent relay publisher, relay-URL
normalization and relay-list enhancement, event signing/verification, and the
NIP-98 auth-header builder.  JavaScript strings are modelled as `List Char`.
-/

set_option linter.unusedVariables false

abbrev JStr := List Char

def strL (s : String) : JStr := s.toList

/-! ## Character classes (ASCII, matching the regex classes used in the source) -/

def isDigitCh (c : Char) : Bool := '0' ≤ c && c ≤ '9'

def isLowerCh (c : Char) : Bool := 'a' ≤ c && c ≤ 'z'

def isUpperCh (c : Char) : Bool := 'A' ≤ c && c ≤ 'Z'

def isAlphaCh (c : Char) : Bool := isLowerCh c || isUpperCh c

/-- The character class `[0-9a-z]` under the `i` flag: ASCII digits and letters. -/
def isAlnum36 (c : Char) : Bool := isDigitCh c || isAlphaCh c

/-- The character class `[0-9a-f]` under the `i` flag: hexadecimal digits. -/
def isHexDigitCh (c : Char) : Bool :=
  isDigitCh c || ('a' ≤ c && c ≤ 'f') || ('A' ≤ c && c ≤ 'F')

/-- ASCII lower-casing, as performed case-insensitive regex matching and by
`String.prototype.toLowerCase` on ASCII data. -/
def lowerCh (c : Char) : Char := if isUpperCh c then Char.ofNat (c.toNat + 32) else c

def upperCh (c : Char) : Char := if isLowerCh c then Char.ofNat (c.toNat - 32) else c

/-- The regex class `\s`, restricted to its ASCII members. -/
def wsCh (c : Char) : Bool :=
  c = ' ' || c = '\t' || c = '\n' || c = '\r' || c = '\x0b' || c = '\x0c'

/-- `startsWithCI pat l`: `l` starts with the (lower-case) literal `pat`,
compared case-insensitively. -/
def startsWithCI : JStr → JStr → Bool
  | [], _ => true
  | _ :: _, [] => false
  | p :: ps, c :: cs => (lowerCh c = p) && startsWithCI ps cs

/-- Case-sensitive `String.prototype.startsWith`. -/
def startsWithStr : JStr → JStr → Bool
  | [], _ => true
  | _ :: _, [] => false
  | p :: ps, c :: cs => (c = p) && startsWithStr ps cs

/-- `String.prototype.includes`: contiguous-substring test. -/
def isSubstrB (needle hay : JStr) : Bool := hay.tails.any (fun t => startsWithStr needle t)

/-! ## Error sanitizer — `src/scripts/utils/error-sanitizer.js` (`sanitizeErrorMessage`)

Each `String.prototype.replace(/…/gi, token)` call is modelled as a left-to-right
scanner: at each position it either consumes a leftmost match (emitting the
replacement token) or copies one character.  The scanners are fuel-based with
fuel = input length, which always suffices because a match consumes at least
one character. -/

/-- Leftmost-match behaviour of one global replace pass: at the head of `l`,
`find l = some (tok, k)` means a match of length `k ≥ 1` is replaced by `tok`. -/
def genScanF (find : JStr → Option (JStr × Nat)) : Nat → JStr → JStr
  | 0, l => l
  | _ + 1, [] => []
  | fuel + 1, c :: t =>
    match find (c :: t) with
    | some (tok, k) => tok ++ genScanF find fuel (List.drop (k - 1) t)
    | none => c :: genScanF find fuel t

def runPass (find : JStr → Option (JStr × Nat)) (l : JStr) : JStr := genScanF find l.length l

/-- Matcher for `/nsec[0-9a-z]+/gi`. -/
def findNsec (l : JStr) : Option (JStr × Nat) :=
  if startsWithCI (strL "nsec") l then
    let run := ((l.drop 4).takeWhile isAlnum36).length
    if run = 0 then none else some (strL "[nsec]", 4 + run)
  else none

/-- Matcher for `/[0-9a-f]{64}/gi`. -/
def findHex64 (l : JStr) : Option (JStr × Nat) :=
  if (l.take 64).length = 64 && (l.take 64).all isHexDigitCh then
    some (strL "[hex-key]", 64)
  else none

/-- `key[=:]` occurs at offset `j` of `m` with a `\s*[^\s]+` tail, and the
greedy `.*` reaching `j` crosses no newline. -/
def keyTailOK (m : JStr) (j : Nat) : Bool :=
  !(m.take j).contains '\n'
    && startsWithCI (strL "key") (m.drop j)
    && (match m.drop (j + 3) with
        | c :: _ => c = '=' || c = ':'
        | [] => false)
    && !((m.drop (j + 4)).dropWhile wsCh).isEmpty

/-- The greedy `.*` picks the largest viable `key[=:]` offset. -/
def bestKeyJ (m : JStr) : Option Nat :=
  ((List.range (m.length + 1)).filter (fun j => keyTailOK m j)).max?

/-- Matcher for `/<lead>.*key[=:]\s*[^\s]+/gi` (with `lead` = `private`/`secret`),
including the greedy backtracking of `.*`. -/
def findKeyPat (lead tok : JStr) (l : JStr) : Option (JStr × Nat) :=
  if startsWithCI lead l then
    let m := l.drop lead.length
    match bestKeyJ m with
    | some j =>
      let after := m.drop (j + 4)
      let w := (after.takeWhile wsCh).length
      let r := ((after.drop w).takeWhile (fun c => !wsCh c)).length
      some (tok, lead.length + j + 4 + w + r)
    | none => none
  else none

/-- Matcher for `/<lead>[=:]\s*[^\s]+/gi` (the environment-variable patterns). -/
def findEnvPat (lead tok : JStr) (l : JStr) : Option (JStr × Nat) :=
  if startsWithCI lead l then
    match l.drop lead.length with
    | c :: rest =>
      if c = '=' || c = ':' then
        let w := (rest.takeWhile wsCh).length
        let r := ((rest.drop w).takeWhile (fun c => !wsCh c)).length
        if r = 0 then none else some (tok, lead.length + 1 + w + r)
      else none
    | [] => none
  else none

/-- `sanitizeErrorMessage` from `src/scripts/utils/error-sanitizer.js`: the seven
`replace` passes in source order.  A falsy (empty) message is returned as is. -/
def sanitizeErrorMessage (m : JStr) : JStr :=
  if m = [] then m
  else
    runPass (findEnvPat (strL "nsec") (strL "NSEC=[redacted]"))
      (runPass (findEnvPat (strL "nostr_private_key") (strL "NOSTR_PRIVATE_KEY=[redacted]"))
        (runPass (findEnvPat (strL "nostrgit_secret_key") (strL "NOSTRGIT_SECRET_KEY=[redacted]"))
          (runPass (findKeyPat (strL "secret") (strL "[secret-key]"))
            (runPass (findKeyPat (strL "private") (strL "[private-key]"))
              (runPass findHex64
                (runPass findNsec m))))))

/-! ## Event model — canonical serialization, hash and signature

Modelled from the spec: the event `id` is "a deterministic hash over a canonical
serialization of `{pubkey, createdAt, kind, tags, content}`", and `sig` is "a
signature over `id` using the private scalar".  The SHA-256 hash and the schnorr
signature live in the `nostr-tools` dependency, not in this repository, so they
are idealized: the collision-free hash is represented by the canonical
serialization itself, and a signature is represented by the pair of the signed
serialization and the signer's public key. -/

structure SerializedEvent where
  pubkey : JStr
  created_at : Nat
  kind : Nat
  tags : List (List JStr)
  content : JStr
deriving DecidableEq

structure SchnorrSig where
  signedId : SerializedEvent
  signerPub : JStr
deriving DecidableEq

structure NostrEvent where
  kind : Nat
  created_at : Nat
  pubkey : JStr
  tags : List (List JStr)
  content : JStr
  id : SerializedEvent
  sig : SchnorrSig
deriving DecidableEq

/-- `getEventHash` (nostr-tools): hash of `[0, pubkey, created_at, kind, tags, content]`,
with the ideal hash represented by the serialized tuple itself. -/
def getEventHash (e : NostrEvent) : SerializedEvent :=
  ⟨e.pubkey, e.created_at, e.kind, e.tags, e.content⟩

def hexChar (n : Nat) : Char :=
  if n = 0 then '0' else if n = 1 then '1' else if n = 2 then '2' else if n = 3 then '3'
  else if n = 4 then '4' else if n = 5 then '5' else if n = 6 then '6' else if n = 7 then '7'
  else if n = 8 then '8' else if n = 9 then '9' else if n = 10 then 'a' else if n = 11 then 'b'
  else if n = 12 then 'c' else if n = 13 then 'd' else if n = 14 then 'e' else 'f'

def byteToHex (b : Nat) : JStr := [hexChar (b / 16 % 16), hexChar (b % 16)]

/-- Modelled from the spec: the public identifier is "derived deterministically
from the private scalar (one-way)" and is "hex-encoded for display"
(`getPublicKey` of nostr-tools). -/
def getPublicKey (privBytes : List Nat) : JStr := (privBytes.map byteToHex).flatten

/-- Modelled from the spec: checking `event.sig` against a message hash and a
public key (schnorr verification, idealized). -/
def schnorrVerify (sig : SchnorrSig) (msg : SerializedEvent) (pk : JStr) : Bool :=
  decide (sig.signedId = msg) && decide (sig.signerPub = pk)

structure EventTemplate where
  kind : Nat
  created_at : Nat
  tags : List (List JStr)
  content : JStr
deriving DecidableEq

/-- `finalizeEvent` (nostr-tools), modelled from the spec: "computes canonical
serialization, derives `id` via a fixed one-way hash, computes `sig` via the
identity's private scalar over `id`", stamping the derived public key. -/
def finalizeEvent (t : EventTemplate) (sk : List Nat) : NostrEvent :=
  let pk := getPublicKey sk
  let ser : SerializedEvent := ⟨pk, t.created_at, t.kind, t.tags, t.content⟩
  { kind := t.kind, created_at := t.created_at, pubkey := pk, tags := t.tags,
    content := t.content, id := ser, sig := ⟨ser, pk⟩ }

/-- `verifyEvent` (nostr-tools), modelled from the spec: "independently checks
`event.sig` against `event.pubkey` and `event.id`". -/
def verifyEvent (e : NostrEvent) : Bool := schnorrVerify e.sig e.id e.pubkey

structure VerifyReport where
  valid : Bool
  signatureValid : Bool
  idMatches : Bool
deriving DecidableEq

/-- The verification performed by `verify` in `src/scripts/commands/verify.js`
(lines 33–40): `signatureValid = verifyEvent(event)`,
`idMatches = (event.id === getEventHash(event))`, `valid = signatureValid && idMatches`. -/
def verify (e : NostrEvent) : VerifyReport :=
  let signatureValid := verifyEvent e
  let idMatches := decide (e.id = getEventHash e)
  ⟨signatureValid && idMatches, signatureValid, idMatches⟩

/-! ## Key decoding — `src/scripts/utils/keys.js` (`getPrivateKeyBytes`)

The nip19 `decode` of nostr-tools is not part of this repository; it is passed
in as an explicit environment `decodeFn` (its result: a typed payload, or a
thrown error message). -/

inductive DecodeOutcome where
  | ok (ty : JStr) (data : List Nat)
  | threw (msg : JStr)

/-- The regex test `/^[0-9a-fA-F]{64}$/`. -/
def isHex64 (k : JStr) : Bool := k.length = 64 && k.all isHexDigitCh

/-- The hex-to-bytes loop of `getPrivateKeyBytes` (`parseInt(key.slice(i*2, i*2+2), 16)`). -/
def hexVal (c : Char) : Nat :=
  if isDigitCh c then c.toNat - '0'.toNat
  else if 'a' ≤ c && c ≤ 'f' then c.toNat - 'a'.toNat + 10
  else if 'A' ≤ c && c ≤ 'F' then c.toNat - 'A'.toNat + 10
  else 0

def hexPairsToBytes : JStr → List Nat
  | a :: b :: t => (16 * hexVal a + hexVal b) :: hexPairsToBytes t
  | _ => []

/-- `getPrivateKeyBytes(key)`: `none` stands for a non-string (falsy) argument,
`some []` for the empty string (also falsy).  Thrown errors are `Except.error`;
the surrounding `catch` replaces an error whose message contains the key. -/
def getPrivateKeyBytes (decodeFn : JStr → DecodeOutcome) (key : Option JStr) :
    Except JStr (List Nat) :=
  match key with
  | none => .error (strL "Invalid key: key must be a string")
  | some k =>
    if k = [] then .error (strL "Invalid key: key must be a string")
    else
      let inner : Except JStr (List Nat) :=
        if startsWithStr (strL "nsec") k then
          match decodeFn k with
          | .ok ty data => if ty = strL "nsec" then .ok data else .error (strL "Invalid nsec format")
          | .threw m => .error m
        else if isHex64 k then .ok (hexPairsToBytes k)
        else .error (strL "Invalid key format. Use nsec or hex.")
      match inner with
      | .ok d => .ok d
      | .error m =>
        if isSubstrB k m then .error (strL "Invalid key format. Use nsec or hex.")
        else .error m

/-! ## Concurrent publisher — `src/scripts/relay/publisher.js` (`publishToRelays`)

`pool.publish(relays, event)` returns one promise per entry of `relays`; the
settled results are modelled as an environment `net : Nat → SettledResult`
indexed by position.  The second component of the result records whether a
`SimplePool` was created (i.e. whether any network activity was started). -/

inductive SettledResult where
  | fulfilled (value : JStr)
  | rejected (reason : JStr)

structure FailedEntry where
  relay : JStr
  error : JStr
deriving DecidableEq

structure PublishOutcome where
  success : List JStr
  failed : List FailedEntry
deriving DecidableEq

/-- The result-processing loop of `publishToRelays` (lines 39–58): fulfilled
promises push the relay URL onto `success`, rejected ones push the relay URL
with a sanitized reason onto `failed`. -/
def processPublishResults (net : Nat → SettledResult) : List JStr → Nat → PublishOutcome
  | [], _ => ⟨[], []⟩
  | r :: rest, i =>
    let o := processPublishResults net rest (i + 1)
    match net i with
    | .fulfilled _ => ⟨r :: o.success, o.failed⟩
    | .rejected reason => ⟨o.success, ⟨r, sanitizeErrorMessage reason⟩ :: o.failed⟩

/-- `publishToRelays(event, relays, privateKeyBytes)`: a missing key throws
before any pool exists; a missing or empty relay list returns the empty outcome
without a pool; otherwise all relays are attempted and aggregated. -/
def publishToRelays (event : NostrEvent) (relays : Option (List JStr))
    (privateKeyBytes : Option (List Nat)) (net : Nat → SettledResult) :
    Except JStr PublishOutcome × Bool :=
  match privateKeyBytes with
  | none => (.error (strL "Private key is required for publishing events"), false)
  | some _ =>
    match relays with
    | none => (.ok ⟨[], []⟩, false)
    | some rs =>
      if rs = [] then (.ok ⟨[], []⟩, false)
      else (.ok (processPublishResults net rs 0), true)

/-! ## Relay URL normalization — `src/scripts/relay/relay-fetcher.js` (`normalizeRelayUrl`)

The WHATWG URL parser used by the source (`new URL`) is a platform builtin, not
repository code; it is modelled restricted to the shapes relay addresses take:
schemes `ws`/`wss`/`http`/`https` written with a full `://` separator, no
userinfo and no IPv6 bracket hosts, and characters that the platform parser
would percent-encode are rejected (parse failure, hence `null`) instead of
being encoded.  Dot path segments are kept literally.  Ports are canonicalized
numerically (leading zeros dropped) and parse-time default-port elision is
performed, as the platform does. -/

inductive UrlScheme where
  | ws | wss | http | https
deriving DecidableEq

def schemeChars : UrlScheme → JStr
  | .ws => strL "ws"
  | .wss => strL "wss"
  | .http => strL "http"
  | .https => strL "https"

def schemeOfChars (s : JStr) : Option UrlScheme :=
  let t := s.map lowerCh
  if t = strL "ws" then some .ws
  else if t = strL "wss" then some .wss
  else if t = strL "http" then some .http
  else if t = strL "https" then some .https
  else none

def defaultPortChars : UrlScheme → JStr
  | .ws => strL "80"
  | .http => strL "80"
  | .wss => strL "443"
  | .https => strL "443"

def isHostCh (c : Char) : Bool := isAlnum36 c || c = '.' || c = '-' || c = '_'

def isPathCh (c : Char) : Bool :=
  isAlnum36 c || c = '/' || c = '.' || c = '-' || c = '_' || c = '~' || c = ':' || c = '@'
    || c = '!' || c = '$' || c = '&' || c = '(' || c = ')' || c = '*' || c = '+' || c = ','
    || c = ';' || c = '='

def isQueryCh (c : Char) : Bool := isAlnum36 c || c = '.' || c = '-' || c = '_' || c = '*'

/-- Split at the first occurrence of `sep`: the part before it, and the rest
after it (`none` when `sep` does not occur). -/
def splitAtFirst (sep : Char) : JStr → JStr × Option JStr
  | [] => ([], none)
  | c :: t =>
    if c = sep then ([], some t)
    else
      let r := splitAtFirst sep t
      (c :: r.1, r.2)

def splitAll (sep : Char) : JStr → List JStr
  | [] => [[]]
  | c :: t =>
    if c = sep then [] :: splitAll sep t
    else
      match splitAll sep t with
      | [] => [[c]]
      | s :: rest => (c :: s) :: rest

def pairOfSegment (seg : JStr) : JStr × JStr :=
  match splitAtFirst '=' seg with
  | (k, none) => (k, [])
  | (k, some v) => (k, v)

/-- `URLSearchParams` parsing of a query string (empty `&`-segments skipped). -/
def parseParams (q : JStr) : List (JStr × JStr) :=
  ((splitAll '&' q).filter (fun s => !s.isEmpty)).map pairOfSegment

/-- `URLSearchParams` serialization (each pair as `name=value`). -/
def joinParams : List (JStr × JStr) → JStr
  | [] => []
  | [(k, v)] => k ++ '=' :: v
  | (k, v) :: rest => k ++ '=' :: v ++ '&' :: joinParams rest

/-- Code-unit order on parameter names, as used by `URLSearchParams.sort`. -/
def lexLtQ : JStr → JStr → Bool
  | _, [] => false
  | [], _ :: _ => true
  | a :: as, b :: bs => a < b || (a = b && lexLtQ as bs)

/-- Stable insertion keeping an earlier element in front of later equal keys. -/
def insertPair (x : JStr × JStr) : List (JStr × JStr) → List (JStr × JStr)
  | [] => [x]
  | y :: t => if lexLtQ y.1 x.1 then y :: insertPair x t else x :: y :: t

/-- `searchParams.sort()`: stable sort by name. -/
def sortPairs : List (JStr × JStr) → List (JStr × JStr)
  | [] => []
  | x :: t => insertPair x (sortPairs t)

structure URLRec where
  scheme : UrlScheme
  host : JStr
  port : Option JStr
  path : JStr
  query : List (JStr × JStr)
deriving DecidableEq

def canonPortDigits (ds : JStr) : JStr :=
  match ds.dropWhile (fun c => c = '0') with
  | [] => ['0']
  | r => r

/-- Port parsing: empty or absent port is null; digits are canonicalized
numerically with the scheme's default elided. -/
def parsePort (sch : UrlScheme) : Option JStr → Option (Option JStr)
  | none => some none
  | some ds =>
    if ds = [] then some none
    else if ds.all isDigitCh then
      some (if canonPortDigits ds = defaultPortChars sch then none
        else some (canonPortDigits ds))
    else none

/-- Authority parsing: no userinfo, validated host (lower-cased), numeric port
with parse-time default elision. -/
def parseHostPort (sch : UrlScheme) (authority : JStr) : Option (JStr × Option JStr) :=
  if authority.contains '@' then none
  else if (splitAtFirst ':' authority).1 = []
      || !(splitAtFirst ':' authority).1.all isHostCh then none
  else
    match parsePort sch (splitAtFirst ':' authority).2 with
    | none => none
    | some port => some ((splitAtFirst ':' authority).1.map lowerCh, port)

/-- An absent path component on a special-scheme URL is `/`. -/
def parsePath : Option JStr → JStr
  | none => ['/']
  | some p => '/' :: p

def parseQuery (qOpt : Option JStr) : Option (List (JStr × JStr)) :=
  match qOpt with
  | none => some []
  | some qs =>
    if qs.all (fun c => isQueryCh c || c = '&' || c = '=') then some (parseParams qs)
    else none

def parseWithQuery (sch : UrlScheme) (hostPort : JStr × Option JStr) (path : JStr) :
    Option (List (JStr × JStr)) → Option URLRec
  | none => none
  | some query => some ⟨sch, hostPort.1, hostPort.2, path, query⟩

def parseWithHost (sch : UrlScheme) (hpres : Option (JStr × Option JStr))
    (pathOpt : Option JStr) (qOpt : Option JStr) : Option URLRec :=
  match hpres with
  | none => none
  | some hostPort =>
    if !(parsePath pathOpt).all isPathCh then none
    else parseWithQuery sch hostPort (parsePath pathOpt) (parseQuery qOpt)

/-- Parsing of everything after `scheme://`: strip the fragment, split off the
query, split host+port from the path. -/
def parseBody (sch : UrlScheme) (r2 : JStr) : Option URLRec :=
  parseWithHost sch
    (parseHostPort sch (splitAtFirst '/' (splitAtFirst '?' (splitAtFirst '#' r2).1).1).1)
    (splitAtFirst '/' (splitAtFirst '?' (splitAtFirst '#' r2).1).1).2
    (splitAtFirst '?' (splitAtFirst '#' r2).1).2

def parseRest (schemeStr : JStr) : Option JStr → Option URLRec
  | some (a :: b :: r2) =>
    if a = '/' ∧ b = '/' then
      match schemeOfChars schemeStr with
      | none => none
      | some sch => parseBody sch r2
    else none
  | _ => none

/-- The modelled `new URL(s)`: scheme, lower-cased host, canonical non-default
port, `/`-rooted path, parsed query; the fragment is parsed and discarded by
the caller anyway. -/
def parseURL (s : JStr) : Option URLRec :=
  parseRest (splitAtFirst ':' s).1 (splitAtFirst ':' s).2

/-- Lines 22–27: map `http:`→`ws:` and `https:`→`wss:`. -/
def mapScheme : UrlScheme → UrlScheme
  | .http => .ws
  | .https => .wss
  | s => s

def collapseSlashes : JStr → JStr
  | [] => []
  | [c] => [c]
  | a :: b :: t =>
    if a = '/' && b = '/' then collapseSlashes (b :: t)
    else a :: collapseSlashes (b :: t)

/-- Lines 29–33: collapse repeated slashes and strip one trailing slash;
assigning an empty pathname on a special-scheme URL yields `"/"`. -/
def fixPath (p : JStr) : JStr :=
  let c := collapseSlashes p
  let c2 := if c.getLast? = some '/' then c.dropLast else c
  if c2 = [] then ['/'] else c2

/-- Lines 35–40: remove default ports (checked against the mapped protocol). -/
def stripDefaultPort (sch : UrlScheme) (port : Option JStr) : Option JStr :=
  match port with
  | some p =>
    if p = strL "80" ∧ sch = .ws then none
    else if p = strL "443" ∧ sch = .wss then none
    else port
  | none => none

/-- The normalization performed on the parsed URL object (lines 22–44). -/
def fixURL (u : URLRec) : URLRec :=
  { scheme := mapScheme u.scheme
    host := u.host
    port := stripDefaultPort (mapScheme u.scheme) u.port
    path := fixPath u.path
    query := sortPairs u.query }

def portPart : Option JStr → JStr
  | none => []
  | some p => ':' :: p

def queryPart : List (JStr × JStr) → JStr
  | [] => []
  | kv :: rest => '?' :: joinParams (kv :: rest)

/-- `urlObj.toString()`. -/
def serializeURL (u : URLRec) : JStr :=
  schemeChars u.scheme ++ strL "://" ++ u.host ++ portPart u.port ++ u.path
    ++ queryPart u.query

/-- The strict-weak-order fact `¬(b < a)` used for sortedness of query pairs. -/
def qle (a b : JStr × JStr) : Prop := lexLtQ b.1 a.1 = false

/-- Invariants of the canonical URL record produced by `fixURL ∘ parseURL`:
exactly the facts needed to show that re-normalizing its serialization is the
identity. -/
structure URLInv (v : URLRec) : Prop where
  scheme2 : v.scheme = UrlScheme.ws ∨ v.scheme = UrlScheme.wss
  hostNe : v.host ≠ []
  hostChars : v.host.all isHostCh = true
  hostLower : v.host.map lowerCh = v.host
  portInv : ∀ p, v.port = some p →
    p.all isDigitCh = true ∧ canonPortDigits p = p ∧ p ≠ defaultPortChars v.scheme
  pathHead : ∃ t, v.path = '/' :: t
  pathChars : v.path.all isPathCh = true
  pathNoDouble : List.Chain' (fun a b => ¬(a = '/' ∧ b = '/')) v.path
  pathLast : v.path = ['/'] ∨ v.path.getLast? ≠ some '/'
  queryChars : ∀ kv ∈ v.query,
    kv.1.all isQueryCh = true ∧ kv.2.all (fun c => isQueryCh c || c = '=') = true
  querySorted : List.Chain' qle v.query

/-- `String.prototype.trim` (ASCII whitespace). -/
def trimList (l : JStr) : JStr :=
  ((l.dropWhile wsCh).reverse.dropWhile wsCh).reverse

/-- `url.replace(/\/+$/, '')`. -/
def stripTrailSlashes (l : JStr) : JStr := (l.reverse.dropWhile (fun c => c = '/')).reverse

/-- `url.includes('://')`. -/
def hasSchemeSep (l : JStr) : Bool := isSubstrB (strL "://") l

/-- Line 15–17: default to `wss://` when no scheme separator is present. -/
def addScheme (l : JStr) : JStr := if hasSchemeSep l then l else strL "wss://" ++ l

def preprocessUrl (l : JStr) : JStr := addScheme (stripTrailSlashes (trimList l))

/-- `normalizeRelayUrl` (lines 7–51).  `none` models `null`/`undefined`; the
empty string is falsy.  Parse failures are caught and become `null`. -/
def normalizeRelayUrl (url : Option JStr) : Option JStr :=
  match url with
  | none => none
  | some l =>
    if l = [] then none
    else
      match parseURL (preprocessUrl l) with
      | none => none
      | some u => some (serializeURL (fixURL u))

/-! ## Relay list enhancement — `enhanceRelayList` (lines 162–195)

The three preference lists fetched over the network by `fetchRelayLists` are
passed in explicitly; a failed fetch degrades the corresponding list to `[]`. -/

structure RelayLists where
  outboxes : List JStr
  localRelays : List JStr
  blockedRelays : List JStr

/-- `.map(url => normalizeRelayUrl(url)).filter(url => url !== null)`. -/
def filtNorm (ls : List JStr) : List JStr :=
  ls.filterMap (fun url => normalizeRelayUrl (some url))

/-- The dedup-and-filter loop (lines 184–192). -/
def dedupLoop : List JStr → List JStr → List JStr → List JStr
  | [], _, _ => []
  | relay :: rest, seen, blocked =>
    if relay ≠ [] ∧ relay ∉ seen ∧ relay ∉ blocked then
      relay :: dedupLoop rest (relay :: seen) blocked
    else dedupLoop rest seen blocked

/-- `enhanceRelayList(baseRelays, pubkey, queryRelays)` given the fetched lists. -/
def enhanceRelayList (baseRelays : List JStr) (prefs : RelayLists) : List JStr :=
  let normalizedBase := filtNorm baseRelays
  let normalizedBlocked := filtNorm prefs.blockedRelays
  let allRelays := normalizedBase ++ filtNorm prefs.outboxes ++ filtNorm prefs.localRelays
  dedupLoop allRelays [] normalizedBlocked

/-! ## NIP-98 auth builder — `src/scripts/utils/auth.js` (`createNIP98Auth`) -/

/-- `method.toUpperCase()` (ASCII). -/
def upperStr (s : JStr) : JStr := s.map upperCh

/-- `url.replace(/\/$/, '')`: strip one trailing slash. -/
def stripOneSlash (u : JStr) : JStr := if u.getLast? = some '/' then u.dropLast else u

/-- Modelled from the spec: "a tag carries a one-way hash of that body"
(`createHash('sha256')`, living outside this repository); the ideal hash is
represented injectively by tagging the hashed text. -/
def sha256Body (b : JStr) : JStr := '#' :: b

def KIND_NIP98_AUTH : Nat := 27235

/-- `createNIP98Auth(url, method, body)` with the environment secret, nip19
decoder and clock passed explicitly.  The final `"Nostr " + base64(JSON(event))`
wrapper is an injective transport encoding and is omitted: the signed event
carrying the tags is returned. -/
def createNIP98Auth (decodeFn : JStr → DecodeOutcome) (envKey : Option JStr)
    (url method : JStr) (body : Option JStr) (now : Nat) : Except JStr NostrEvent :=
  match envKey with
  | none => .error (strL "NOSTRGIT_SECRET_KEY environment variable is not set")
  | some k =>
    if k = [] then .error (strL "NOSTRGIT_SECRET_KEY environment variable is not set")
    else
      match getPrivateKeyBytes decodeFn (some k) with
      | .error m => .error m
      | .ok privateKeyBytes =>
        let normalizedUrl := stripOneSlash url
        let tags := [[strL "u", normalizedUrl], [strL "method", upperStr method]]
          ++ (match body with
              | some b => if b ≠ [] then [[strL "payload", sha256Body b]] else []
              | none => [])
        .ok (finalizeEvent ⟨KIND_NIP98_AUTH, now, tags, strL ""⟩ privateKeyBytes)

/-- First tag with the given name, second entry. -/
def getTagValue (e : NostrEvent) (name : JStr) : Option JStr :=
  (e.tags.find? (fun t => decide (t.head? = some name))).bind (fun t => t[1]?)

/-! ## Sample inputs used by witnesses and counterexamples -/

def sampleEvent : NostrEvent := finalizeEvent ⟨1, 0, [], strL "hi"⟩ [1]

def netAllOk : Nat → SettledResult := fun _ => .fulfilled []

def netMix : Nat → SettledResult := fun i =>
  if i = 0 then .fulfilled [] else .rejected (strL "blocked: spam")

def dupRelay : JStr := strL "wss://a"

def hexKey64 : JStr := strL "0000000000000000000000000000000000000000000000000000000000000001"

/-- Occurrence count of a relay address in a list. -/
def countOcc (r : JStr) : List JStr → Nat
  | [] => 0
  | x :: t => (if x = r then 1 else 0) + countOcc r t

/-- The per-claim partition property of `publishToRelays` outcomes, as claimed:
every relay of the attempted list lies in exactly one collection, once. -/
def partitionClaim (rs : List JStr) (out : PublishOutcome) : Prop :=
  ∀ r ∈ rs,
    (countOcc r out.success = 1 ∧ countOcc r (out.failed.map FailedEntry.relay) = 0)
    ∨ (countOcc r out.success = 0 ∧ countOcc r (out.failed.map FailedEntry.relay) = 1)

/-- A `key=`/`secret=`-shaped fragment carrying a value: `secret=` followed by
at least one non-whitespace character, anywhere in the string. -/
def hasSecretEqFrag (l : JStr) : Bool :=
  l.tails.any (fun t =>
    startsWithCI (strL "secret") t
      && (match t.drop 6 with
          | '=' :: c :: _ => !wsCh c
          | _ => false))

/-- A window of 64 consecutive hexadecimal digits occurs somewhere. -/
def hasHex64RunB (l : JStr) : Bool :=
  l.tails.any (fun t => (t.take 64).length = 64 && (t.take 64).all isHexDigitCh)

/-- A match of `/nsec[0-9a-z]/i` begins here. -/
def nsecHitB (s : JStr) : Bool :=
  startsWithCI (strL "nsec") s
    && (match s.drop 4 with
        | c :: _ => isAlnum36 c
        | [] => false)

/-- An nsec-prefixed encoded-key fragment occurs somewhere. -/
def hasNsecFragB (l : JStr) : Bool := l.tails.any nsecHitB

/-- Length of the leading run of hexadecimal digits. -/
def hexRunLen (l : JStr) : Nat := (l.takeWhile isHexDigitCh).length

/-- No 64 consecutive hexadecimal digits anywhere (suffix formulation). -/
def noHex64 (l : JStr) : Prop := ∀ s, s.IsSuffix l → hexRunLen s < 64

/-- No `/nsec[0-9a-z]/i` match anywhere (suffix formulation). -/
def noNsec (l : JStr) : Prop := ∀ s, s.IsSuffix l → nsecHitB s = false

/-- `a` is a case-insensitive prefix-compatible fragment of the pattern `pat`
(`a` no longer than `pat`, each character ci-matching). -/
def ciPreOf : JStr → JStr → Bool
  | _, [] => true
  | [], _ :: _ => false
  | p :: ps, c :: cs => (lowerCh c = p) && ciPreOf ps cs

/-- Every nonempty suffix of a replacement token refutes the nsec pattern
within its own characters: a suffix of length ≥ 5 is not a match, and a
shorter suffix is not even prefix-compatible with `nsec`. -/
def tokSafeB (tok : JStr) : Bool :=
  tok.tails.all (fun s =>
    s.isEmpty || (if 5 ≤ s.length then !nsecHitB s else !ciPreOf (strL "nsec") s))

/-- The properties of a replace-pass matcher used by the sanitizer proofs:
matches consume at least one character and start on an alphanumeric character,
and the replacement token is a short bracket-terminated literal that can
neither contain nor seed an nsec match or a hexadecimal run. -/
structure FindSpec (find : JStr → Option (JStr × Nat)) : Prop where
  pos : ∀ l tok k, find l = some (tok, k) → 1 ≤ k
  tokLast : ∀ l tok k, find l = some (tok, k) → tok.getLast? = some ']'
  tokLen5 : ∀ l tok k, find l = some (tok, k) → 5 ≤ tok.length
  tokLen64 : ∀ l tok k, find l = some (tok, k) → tok.length < 64
  tokSafe : ∀ l tok k, find l = some (tok, k) → tokSafeB tok = true
  tokHead : ∀ l tok k, find l = some (tok, k) →
    ∃ c r, tok = c :: r ∧ isHexDigitCh c = false
      ∧ lowerCh c ≠ 's' ∧ lowerCh c ≠ 'e' ∧ lowerCh c ≠ 'c'
  matchAlnum : ∀ l tok k, find l = some (tok, k) → ∃ c r, l = c :: r ∧ isAlnum36 c = true

/-! ## Publisher lemmas -/

theorem processPublishResults_failed_sanitized (net : Nat → SettledResult) :
    ∀ (rs : List JStr) (i : Nat) (e : FailedEntry),
      e ∈ (processPublishResults net rs i).failed →
      ∃ reason, e.error = sanitizeErrorMessage reason := by
  intro rs
  induction rs with
  | nil => intro i e h; simp [processPublishResults] at h
  | cons r rest ih =>
    intro i e h
    simp only [processPublishResults] at h
    cases hn : net i with
    | fulfilled v =>
      rw [hn] at h
      exact ih (i + 1) e h
    | rejected reason =>
      rw [hn] at h
      simp only [List.mem_cons] at h
      rcases h with h | h
      · exact ⟨reason, by rw [h]⟩
      · exact ih (i + 1) e h

theorem processPublishResults_perm (net : Nat → SettledResult) :
    ∀ (rs : List JStr) (i : Nat),
      ((processPublishResults net rs i).success
        ++ ((processPublishResults net rs i).failed.map FailedEntry.relay)).Perm rs := by
  intro rs
  induction rs with
  | nil => intro i; simp [processPublishResults]
  | cons r rest ih =>
    intro i
    simp only [processPublishResults]
    cases hn : net i with
    | fulfilled v =>
      simpa using (ih (i + 1)).cons r
    | rejected reason =>
      simp only [List.map_cons]
      exact List.perm_middle.trans ((ih (i + 1)).cons r)

/-- C9: publishing with an absent or empty target list yields an outcome with
both collections empty and creates no relay pool (no network activity). -/
theorem C9_publish_empty_targets (ev : NostrEvent) (b : List Nat) (net : Nat → SettledResult) :
    publishToRelays ev none (some b) net = (.ok ⟨[], []⟩, false)
      ∧ publishToRelays ev (some []) (some b) net = (.ok ⟨[], []⟩, false) := by
  exact ⟨rfl, rfl⟩

/-- C3: with a private key present, `publishToRelays` never raises — every
per-relay rejection is recovered into the failed collection with a sanitized
reason — while an absent private key raises before any pool is created. -/
theorem C3_publish_no_throw (ev : NostrEvent) (relays : Option (List JStr))
    (b : List Nat) (net : Nat → SettledResult) :
    (∃ out, (publishToRelays ev relays (some b) net).1 = .ok out
        ∧ ∀ e ∈ out.failed, ∃ reason, e.error = sanitizeErrorMessage reason)
      ∧ publishToRelays ev relays none net
          = (.error (strL "Private key is required for publishing events"), false) := by
  refine ⟨?_, rfl⟩
  cases relays with
  | none => exact ⟨⟨[], []⟩, rfl, by simp⟩
  | some rs =>
    by_cases h : rs = []
    · subst h; exact ⟨⟨[], []⟩, rfl, by simp⟩
    · refine ⟨processPublishResults net rs 0, ?_, ?_⟩
      · simp [publishToRelays, h]
      · intro e he; exact processPublishResults_failed_sanitized net rs 0 e he

theorem C3_publish_no_throw_witness :
    (∃ out, (publishToRelays sampleEvent (some [dupRelay]) (some [1]) netMix).1 = .ok out
        ∧ ∀ e ∈ out.failed, ∃ reason, e.error = sanitizeErrorMessage reason)
      ∧ publishToRelays sampleEvent (some [dupRelay]) none netMix
          = (.error (strL "Private key is required for publishing events"), false) :=
  C3_publish_no_throw sampleEvent (some [dupRelay]) [1] netMix

/-- C2 counterexample: with the duplicate target list `[A, A]` and both
attempts accepted, `A` appears twice in the success collection, so it does not
appear in exactly one collection exactly once. -/
theorem C2_counterexample :
    (publishToRelays sampleEvent (some [dupRelay, dupRelay]) (some [1]) netAllOk).1
        = .ok ⟨[dupRelay, dupRelay], []⟩
      ∧ ¬ ∀ out, (publishToRelays sampleEvent (some [dupRelay, dupRelay]) (some [1]) netAllOk).1
          = .ok out → partitionClaim [dupRelay, dupRelay] out := by
  constructor
  · rfl
  · intro h
    have := h ⟨[dupRelay, dupRelay], []⟩ rfl dupRelay (by simp)
    revert this
    decide

/-- C2 (amended): for every *duplicate-free* non-empty target list, the outcome
partitions the attempted set — each listed relay appears in exactly one of the
two collections exactly once, and no other relay appears at all; in general the
two collections' multiplicities sum to the input list's. -/
theorem countOcc_append (r : JStr) (l₁ l₂ : List JStr) :
    countOcc r (l₁ ++ l₂) = countOcc r l₁ + countOcc r l₂ := by
  induction l₁ with
  | nil => simp [countOcc]
  | cons x t ih => simp [countOcc, ih]; omega

theorem countOcc_eq_countP (r : JStr) (l : List JStr) :
    countOcc r l = l.countP (fun x => decide (x = r)) := by
  induction l with
  | nil => simp [countOcc]
  | cons x t ih =>
    by_cases h : x = r <;> simp [countOcc, List.countP_cons, h, ih] <;> omega

theorem countOcc_perm {l₁ l₂ : List JStr} (h : l₁.Perm l₂) (r : JStr) :
    countOcc r l₁ = countOcc r l₂ := by
  rw [countOcc_eq_countP, countOcc_eq_countP]
  exact h.countP_eq _

theorem countOcc_eq_zero {r : JStr} {l : List JStr} (h : r ∉ l) : countOcc r l = 0 := by
  induction l with
  | nil => rfl
  | cons x t ih =>
    simp only [List.mem_cons, not_or] at h
    simp [countOcc, Ne.symm h.1, ih h.2]

theorem countOcc_pos {r : JStr} {l : List JStr} (h : r ∈ l) : 0 < countOcc r l := by
  induction l with
  | nil => simp at h
  | cons x t ih =>
    rcases List.mem_cons.mp h with h | h
    · simp [countOcc, h.symm]
    · have := ih h
      simp [countOcc]
      omega

theorem countOcc_nodup_mem {r : JStr} {l : List JStr} (hnd : l.Nodup) (h : r ∈ l) :
    countOcc r l = 1 := by
  induction l with
  | nil => simp at h
  | cons x t ih =>
    rcases List.nodup_cons.mp hnd with ⟨hx, ht⟩
    rcases List.mem_cons.mp h with h | h
    · subst h
      simp [countOcc, countOcc_eq_zero hx]
    · have hxr : x ≠ r := fun e => hx (e ▸ h)
      simp [countOcc, hxr, ih ht h]

theorem C2_outcome_partitions (ev : NostrEvent) (rs : List JStr) (b : List Nat)
    (net : Nat → SettledResult) (hne : rs ≠ []) (hnd : rs.Nodup) :
    ∃ out, (publishToRelays ev (some rs) (some b) net).1 = .ok out
      ∧ partitionClaim rs out
      ∧ (∀ r, r ∉ rs → r ∉ out.success ∧ r ∉ out.failed.map FailedEntry.relay) := by
  refine ⟨processPublishResults net rs 0, by simp [publishToRelays, hne], ?_, ?_⟩
  · intro r hr
    have hcount := countOcc_perm (processPublishResults_perm net rs 0) r
    rw [countOcc_append] at hcount
    have hone : countOcc r rs = 1 := countOcc_nodup_mem hnd hr
    rw [hone] at hcount
    rcases Nat.eq_zero_or_pos (countOcc r (processPublishResults net rs 0).success) with h0 | hp
    · right; omega
    · left; omega
  · intro r hr
    have hcount := countOcc_perm (processPublishResults_perm net rs 0) r
    rw [countOcc_append, countOcc_eq_zero hr] at hcount
    constructor
    · intro hmem
      have := countOcc_pos hmem
      omega
    · intro hmem
      have := countOcc_pos hmem
      omega

theorem C2_outcome_partitions_witness :
    ∃ out, (publishToRelays sampleEvent (some [strL "wss://a", strL "wss://b"]) (some [1]) netMix).1
        = .ok out
      ∧ partitionClaim [strL "wss://a", strL "wss://b"] out
      ∧ (∀ r, r ∉ [strL "wss://a", strL "wss://b"] →
          r ∉ out.success ∧ r ∉ out.failed.map FailedEntry.relay) :=
  C2_outcome_partitions sampleEvent [strL "wss://a", strL "wss://b"] [1] netMix
    (by decide) (by decide)

/-! ## Key-decoding error messages (C6) -/

/-- C6 counterexample: for the input `"hex"`, `getPrivateKeyBytes` raises
`"Invalid key format. Use nsec or hex."`, whose text contains the original
secret input `"hex"` as a substring — so the raised message does not avoid the
original secret input. -/
theorem C6_counterexample :
    getPrivateKeyBytes (fun _ => .threw []) (some (strL "hex"))
        = .error (strL "Invalid key format. Use nsec or hex.")
      ∧ isSubstrB (strL "hex") (strL "Invalid key format. Use nsec or hex.") = true := by
  constructor
  · rfl
  · decide

/-- C6 (amended): every error raised by `getPrivateKeyBytes` is either one of
the three fixed diagnostic constants — none of which contains a 64-hex-digit
run or an nsec-prefixed key fragment — or is an underlying decode error whose
message does not contain the secret input as a substring.  (A rethrown decode
message is otherwise propagated unredacted.) -/
theorem C6_error_sanitization (decodeFn : JStr → DecodeOutcome) (key : Option JStr) (m : JStr)
    (h : getPrivateKeyBytes decodeFn key = .error m) :
    (m = strL "Invalid key: key must be a string"
      ∨ m = strL "Invalid nsec format"
      ∨ m = strL "Invalid key format. Use nsec or hex."
      ∨ ∀ k, key = some k → isSubstrB k m = false)
    ∧ hasHex64RunB (strL "Invalid key: key must be a string") = false
    ∧ hasHex64RunB (strL "Invalid nsec format") = false
    ∧ hasHex64RunB (strL "Invalid key format. Use nsec or hex.") = false
    ∧ hasNsecFragB (strL "Invalid key: key must be a string") = false
    ∧ hasNsecFragB (strL "Invalid nsec format") = false
    ∧ hasNsecFragB (strL "Invalid key format. Use nsec or hex.") = false := by
  refine ⟨?_, by decide, by decide, by decide, by decide, by decide, by decide⟩
  cases key with
  | none =>
    simp only [getPrivateKeyBytes, Except.error.injEq] at h
    exact Or.inl h.symm
  | some k =>
    by_cases hk : k = []
    · simp only [getPrivateKeyBytes, if_pos hk, Except.error.injEq] at h
      exact Or.inl h.symm
    · by_cases hns : startsWithStr (strL "nsec") k = true
      · cases hd : decodeFn k with
        | ok ty data =>
          by_cases hty : ty = strL "nsec"
          · simp [getPrivateKeyBytes, hk, hns, hd, hty] at h
          · by_cases hsub : isSubstrB k (strL "Invalid nsec format") = true
            · simp [getPrivateKeyBytes, hk, hns, hd, hty, hsub, Except.error.injEq] at h
              exact Or.inr (Or.inr (Or.inl h.symm))
            · simp [getPrivateKeyBytes, hk, hns, hd, hty, hsub, Except.error.injEq] at h
              exact Or.inr (Or.inl h.symm)
        | threw mm =>
          by_cases hsub : isSubstrB k mm = true
          · simp [getPrivateKeyBytes, hk, hns, hd, hsub, Except.error.injEq] at h
            exact Or.inr (Or.inr (Or.inl h.symm))
          · simp [getPrivateKeyBytes, hk, hns, hd, hsub, Except.error.injEq] at h
            refine Or.inr (Or.inr (Or.inr ?_))
            intro k' hk'
            cases hk'
            rw [← h]
            exact Bool.not_eq_true _ ▸ (Bool.eq_false_iff.mpr (fun hx => hsub hx))
      · by_cases hhex : isHex64 k = true
        · simp [getPrivateKeyBytes, hk, hns, hhex] at h
        · by_cases hsub : isSubstrB k (strL "Invalid key format. Use nsec or hex.") = true
          · simp [getPrivateKeyBytes, hk, hns, hhex, hsub, Except.error.injEq] at h
            exact Or.inr (Or.inr (Or.inl h.symm))
          · simp [getPrivateKeyBytes, hk, hns, hhex, hsub, Except.error.injEq] at h
            exact Or.inr (Or.inr (Or.inl h.symm))

theorem C6_error_sanitization_witness :
    (strL "Invalid key: key must be a string" = strL "Invalid key: key must be a string"
      ∨ strL "Invalid key: key must be a string" = strL "Invalid nsec format"
      ∨ strL "Invalid key: key must be a string" = strL "Invalid key format. Use nsec or hex."
      ∨ ∀ k, (none : Option JStr) = some k →
          isSubstrB k (strL "Invalid key: key must be a string") = false)
    ∧ hasHex64RunB (strL "Invalid key: key must be a string") = false
    ∧ hasHex64RunB (strL "Invalid nsec format") = false
    ∧ hasHex64RunB (strL "Invalid key format. Use nsec or hex.") = false
    ∧ hasNsecFragB (strL "Invalid key: key must be a string") = false
    ∧ hasNsecFragB (strL "Invalid nsec format") = false
    ∧ hasNsecFragB (strL "Invalid key format. Use nsec or hex.") = false :=
  C6_error_sanitization (fun _ => .threw []) none (strL "Invalid key: key must be a string") rfl

/-! ## Verifier (C1) -/

/-- C1: `verify` reports `idMatches` (id = recomputed canonical hash) and
`signatureValid` (sig checked against pubkey and id, independent of the id
check) separately; an event honestly produced by `sign` verifies on both, a
content change flips `idMatches` to false while `signatureValid` remains true,
and the event is reported valid iff both are true. -/
theorem C1_verify_reports (t : EventTemplate) (sk : List Nat) (c' : JStr)
    (hc : c' ≠ t.content) :
    (verify (finalizeEvent t sk)).signatureValid = true
    ∧ (verify (finalizeEvent t sk)).idMatches = true
    ∧ (verify (finalizeEvent t sk)).valid = true
    ∧ (verify { finalizeEvent t sk with content := c' }).idMatches = false
    ∧ (verify { finalizeEvent t sk with content := c' }).signatureValid = true
    ∧ (verify { finalizeEvent t sk with content := c' }).valid = false
    ∧ (∀ e : NostrEvent, (verify e).valid = ((verify e).signatureValid && (verify e).idMatches))
    ∧ (∀ e : NostrEvent, (verify e).signatureValid = schnorrVerify e.sig e.id e.pubkey) := by
  refine ⟨?_, ?_, ?_, ?_, ?_, ?_, fun e => rfl, fun e => rfl⟩
  · simp [verify, verifyEvent, schnorrVerify, finalizeEvent]
  · simp [verify, getEventHash, finalizeEvent]
  · simp [verify, verifyEvent, schnorrVerify, getEventHash, finalizeEvent]
  · simp [verify, getEventHash, finalizeEvent, SerializedEvent.mk.injEq, Ne.symm hc]
  · simp [verify, verifyEvent, schnorrVerify, finalizeEvent]
  · simp [verify, verifyEvent, schnorrVerify, getEventHash, finalizeEvent,
      SerializedEvent.mk.injEq, Ne.symm hc]

theorem C1_verify_reports_witness :
    (verify (finalizeEvent ⟨1, 0, [], strL "a"⟩ [1])).signatureValid = true
    ∧ (verify (finalizeEvent ⟨1, 0, [], strL "a"⟩ [1])).idMatches = true
    ∧ (verify (finalizeEvent ⟨1, 0, [], strL "a"⟩ [1])).valid = true
    ∧ (verify { finalizeEvent ⟨1, 0, [], strL "a"⟩ [1] with content := strL "b" }).idMatches = false
    ∧ (verify { finalizeEvent ⟨1, 0, [], strL "a"⟩ [1] with
        content := strL "b" }).signatureValid = true
    ∧ (verify { finalizeEvent ⟨1, 0, [], strL "a"⟩ [1] with content := strL "b" }).valid = false
    ∧ (∀ e : NostrEvent, (verify e).valid = ((verify e).signatureValid && (verify e).idMatches))
    ∧ (∀ e : NostrEvent, (verify e).signatureValid = schnorrVerify e.sig e.id e.pubkey) :=
  C1_verify_reports ⟨1, 0, [], strL "a"⟩ [1] (strL "b") (by decide)

/-! ## Auth header builder (C8) -/

/-- C8: the auth-token builder binds the URL with one trailing slash stripped
and the upper-cased method into the event's `u` and `method` tags; a URL with
and without one trailing slash binds the same `u` value. -/
theorem C8_auth_binding (decodeFn : JStr → DecodeOutcome) (envKey : Option JStr)
    (url method : JStr) (body : Option JStr) (now : Nat)
    (hurl : url.getLast? ≠ some '/') :
    stripOneSlash (url ++ ['/']) = url
    ∧ stripOneSlash url = url
    ∧ (∀ (u m : JStr) (ev : NostrEvent),
        createNIP98Auth decodeFn envKey u m body now = .ok ev →
        getTagValue ev (strL "u") = some (stripOneSlash u)
        ∧ getTagValue ev (strL "method") = some (upperStr m)) := by
  refine ⟨?_, ?_, ?_⟩
  · simp [stripOneSlash]
  · simp [stripOneSlash, hurl]
  · intro u m ev h
    cases envKey with
    | none => simp [createNIP98Auth] at h
    | some k =>
      by_cases hk : k = []
      · simp [createNIP98Auth, hk] at h
      · cases hpb : getPrivateKeyBytes decodeFn (some k) with
        | error e => simp [createNIP98Auth, hk, hpb] at h
        | ok pb =>
          simp only [createNIP98Auth, if_neg hk, hpb, Except.ok.injEq] at h
          subst h
          cases body with
          | none =>
            constructor
            · rfl
            · rfl
          | some b =>
            by_cases hb : b = []
            · subst hb
              constructor
              · rfl
              · rfl
            · simp only [if_neg hb]
              constructor
              · rfl
              · rfl

theorem C8_auth_binding_witness :
    stripOneSlash (strL "https://x/y" ++ ['/']) = strL "https://x/y"
    ∧ stripOneSlash (strL "https://x/y") = strL "https://x/y"
    ∧ (∀ (u m : JStr) (ev : NostrEvent),
        createNIP98Auth (fun _ => .threw []) (some hexKey64) u m none 0 = .ok ev →
        getTagValue ev (strL "u") = some (stripOneSlash u)
        ∧ getTagValue ev (strL "method") = some (upperStr m)) :=
  C8_auth_binding (fun _ => .threw []) (some hexKey64) (strL "https://x/y") (strL "get") none 0
    (by decide)

/-! ## Relay list enhancement (C5) -/

theorem dedupLoop_mem (blocked : List JStr) :
    ∀ (l seen : List JStr) (x : JStr),
      x ∈ dedupLoop l seen blocked ↔ (x ∈ l ∧ x ∉ seen ∧ x ∉ blocked ∧ x ≠ []) := by
  intro l
  induction l with
  | nil => simp [dedupLoop]
  | cons r rest ih =>
    intro seen x
    by_cases hc : r ≠ [] ∧ r ∉ seen ∧ r ∉ blocked
    · rw [dedupLoop, if_pos hc]
      constructor
      · intro hx
        rcases List.mem_cons.mp hx with h | h
        · subst h
          exact ⟨List.mem_cons_self _ _, hc.2.1, hc.2.2, hc.1⟩
        · have := (ih (r :: seen) x).mp h
          refine ⟨List.mem_cons_of_mem _ this.1, ?_, this.2.2.1, this.2.2.2⟩
          intro hx2
          exact this.2.1 (List.mem_cons_of_mem _ hx2)
      · rintro ⟨hmem, hseen, hblock, hne⟩
        rcases List.mem_cons.mp hmem with h | h
        · subst h; exact List.mem_cons_self _ _
        · by_cases hxr : x = r
          · subst hxr; exact List.mem_cons_self _ _
          · refine List.mem_cons_of_mem _ ((ih (r :: seen) x).mpr ⟨h, ?_, hblock, hne⟩)
            intro hx2
            rcases List.mem_cons.mp hx2 with h2 | h2
            · exact hxr h2
            · exact hseen h2
    · rw [dedupLoop, if_neg hc]
      rw [ih seen x]
      constructor
      · rintro ⟨hmem, hseen, hblock, hne⟩
        exact ⟨List.mem_cons_of_mem _ hmem, hseen, hblock, hne⟩
      · rintro ⟨hmem, hseen, hblock, hne⟩
        rcases List.mem_cons.mp hmem with h | h
        · subst h
          exact absurd ⟨hne, hseen, hblock⟩ hc
        · exact ⟨h, hseen, hblock, hne⟩

theorem dedupLoop_nodup (blocked : List JStr) :
    ∀ (l seen : List JStr), (dedupLoop l seen blocked).Nodup := by
  intro l
  induction l with
  | nil => intro seen; simp [dedupLoop]
  | cons r rest ih =>
    intro seen
    by_cases hc : r ≠ [] ∧ r ∉ seen ∧ r ∉ blocked
    · rw [dedupLoop, if_pos hc]
      refine List.nodup_cons.mpr ⟨?_, ih _⟩
      intro hmem
      exact ((dedupLoop_mem blocked rest (r :: seen) r).mp hmem).2.1 (List.mem_cons_self _ _)
    · rw [dedupLoop, if_neg hc]
      exact ih _

theorem dedupLoop_sublist (blocked : List JStr) :
    ∀ (l seen : List JStr), (dedupLoop l seen blocked).Sublist l := by
  intro l
  induction l with
  | nil => intro seen; simp [dedupLoop]
  | cons r rest ih =>
    intro seen
    by_cases hc : r ≠ [] ∧ r ∉ seen ∧ r ∉ blocked
    · rw [dedupLoop, if_pos hc]
      exact (ih _).cons₂ r
    · rw [dedupLoop, if_neg hc]
      exact (ih _).cons r

theorem serializeURL_ne_nil (u : URLRec) : serializeURL u ≠ [] := by
  have : schemeChars u.scheme ≠ [] := by
    cases u.scheme <;> simp [schemeChars, strL]
  simp only [serializeURL]
  intro h
  rcases List.append_eq_nil.mp h with ⟨h1, -⟩
  rcases List.append_eq_nil.mp h1 with ⟨h2, -⟩
  rcases List.append_eq_nil.mp h2 with ⟨h3, -⟩
  rcases List.append_eq_nil.mp h3 with ⟨h4, -⟩
  rcases List.append_eq_nil.mp h4 with ⟨h5, -⟩
  exact this h5

theorem normalizeRelayUrl_ne_nil {s y : JStr} (h : normalizeRelayUrl (some s) = some y) :
    y ≠ [] := by
  by_cases hs : s = []
  · simp [normalizeRelayUrl, hs] at h
  · cases hp : parseURL (preprocessUrl s) with
    | none => simp [normalizeRelayUrl, hs, hp] at h
    | some u =>
      simp only [normalizeRelayUrl, if_neg hs, hp, Option.some.injEq] at h
      rw [← h]
      exact serializeURL_ne_nil _

theorem mem_filtNorm_ne_nil {ls : List JStr} {x : JStr} (h : x ∈ filtNorm ls) : x ≠ [] := by
  rcases List.mem_filterMap.mp h with ⟨url, -, hn⟩
  exact normalizeRelayUrl_ne_nil hn

/-- C5: `enhanceRelayList` returns the ordered union of the normalized base
list, write targets and local targets, minus the blocked targets, deduplicated
by canonical byte equality and preserving first-seen order; in particular the
two concrete examples of the specification hold. -/
theorem C5_enhance_union (base : List JStr) (prefs : RelayLists) :
    (enhanceRelayList base prefs).Nodup
    ∧ (∀ x, x ∈ enhanceRelayList base prefs ↔
        (x ∈ filtNorm base ++ filtNorm prefs.outboxes ++ filtNorm prefs.localRelays
          ∧ x ∉ filtNorm prefs.blockedRelays))
    ∧ (enhanceRelayList base prefs).Sublist
        (filtNorm base ++ filtNorm prefs.outboxes ++ filtNorm prefs.localRelays)
    ∧ enhanceRelayList [strL "wss://a", strL "wss://b"] ⟨[strL "wss://c"], [], [strL "wss://b"]⟩
        = [strL "wss://a/", strL "wss://c/"]
    ∧ enhanceRelayList [strL "wss://a", strL "wss://a/"] ⟨[], [], []⟩ = [strL "wss://a/"] := by
  refine ⟨dedupLoop_nodup _ _ _, ?_, dedupLoop_sublist _ _ _, rfl, rfl⟩
  intro x
  rw [enhanceRelayList, dedupLoop_mem]
  constructor
  · rintro ⟨hmem, -, hblock, -⟩
    exact ⟨hmem, hblock⟩
  · rintro ⟨hmem, hblock⟩
    have hne : x ≠ [] := by
      rcases List.mem_append.mp hmem with h | h
      · rcases List.mem_append.mp h with h | h
        · exact mem_filtNorm_ne_nil h
        · exact mem_filtNorm_ne_nil h
      · exact mem_filtNorm_ne_nil h
    exact ⟨hmem, by simp, hblock, hne⟩

theorem C5_enhance_union_witness :
    (enhanceRelayList [strL "wss://a"] ⟨[], [], []⟩).Nodup
    ∧ (∀ x, x ∈ enhanceRelayList [strL "wss://a"] ⟨[], [], []⟩ ↔
        (x ∈ filtNorm [strL "wss://a"] ++ filtNorm [] ++ filtNorm []
          ∧ x ∉ filtNorm []))
    ∧ (enhanceRelayList [strL "wss://a"] ⟨[], [], []⟩).Sublist
        (filtNorm [strL "wss://a"] ++ filtNorm [] ++ filtNorm [])
    ∧ enhanceRelayList [strL "wss://a", strL "wss://b"] ⟨[strL "wss://c"], [], [strL "wss://b"]⟩
        = [strL "wss://a/", strL "wss://c/"]
    ∧ enhanceRelayList [strL "wss://a", strL "wss://a/"] ⟨[], [], []⟩ = [strL "wss://a/"] :=
  C5_enhance_union [strL "wss://a"] ⟨[], [], []⟩

/-! ## Totality of normalization (C10) -/

/-- C10: `normalizeRelayUrl` is a total function into `Option`: it returns
`none` exactly on falsy input (null/undefined/empty) or when the preprocessed
input (trim, trailing-slash strip, scheme defaulting) fails to parse, and the
canonical serialization otherwise; in particular unparsable strings yield
`none` rather than an exception. -/
theorem C10_normalize_total :
    normalizeRelayUrl none = none
    ∧ (∀ s : JStr, normalizeRelayUrl (some s) = none ↔
        (s = [] ∨ parseURL (preprocessUrl s) = none))
    ∧ (∀ s u, s ≠ [] → parseURL (preprocessUrl s) = some u →
        normalizeRelayUrl (some s) = some (serializeURL (fixURL u)))
    ∧ normalizeRelayUrl (some (strL "")) = none
    ∧ normalizeRelayUrl (some (strL "ht tp://x")) = none
    ∧ normalizeRelayUrl (some (strL "wss://bad^host")) = none := by
  refine ⟨rfl, ?_, ?_, rfl, rfl, rfl⟩
  · intro s
    by_cases hs : s = []
    · simp [normalizeRelayUrl, hs]
    · cases hp : parseURL (preprocessUrl s) with
      | none => simp [normalizeRelayUrl, hs, hp]
      | some u => simp [normalizeRelayUrl, hs, hp]
  · intro s u hs hp
    simp [normalizeRelayUrl, hs, hp]

theorem C10_normalize_total_witness :
    normalizeRelayUrl (some (strL "wss://a"))
      = some (serializeURL (fixURL ⟨UrlScheme.wss, strL "a", none, ['/'], []⟩)) :=
  C10_normalize_total.2.2.1 (strL "wss://a") ⟨UrlScheme.wss, strL "a", none, ['/'], []⟩
    (by decide) rfl

/-! ## Sanitizer proofs (C7): character and run lemmas -/

theorem strL_nsec : strL "nsec" = ['n', 's', 'e', 'c'] := rfl

theorem alnum_of_lower {c p : Char} (hl : isLowerCh p = true) (h : lowerCh c = p) :
    isAlnum36 c = true := by
  unfold lowerCh at h
  by_cases hu : isUpperCh c = true
  · simp [isAlnum36, isAlphaCh, hu]
  · rw [if_neg (by simpa using hu)] at h
    subst h
    simp [isAlnum36, isAlphaCh, hl]

theorem alnum_of_hex {c : Char} (h : isHexDigitCh c = true) : isAlnum36 c = true := by
  simp only [isHexDigitCh, Bool.or_eq_true, Bool.and_eq_true, decide_eq_true_eq] at h
  rcases h with (h | h) | h
  · simp [isAlnum36, h]
  · have : isLowerCh c = true := by
      simp only [isLowerCh, Bool.and_eq_true, decide_eq_true_eq]
      exact ⟨h.1, le_trans h.2 (by decide)⟩
    simp [isAlnum36, isAlphaCh, this]
  · have : isUpperCh c = true := by
      simp only [isUpperCh, Bool.and_eq_true, decide_eq_true_eq]
      exact ⟨h.1, le_trans h.2 (by decide)⟩
    simp [isAlnum36, isAlphaCh, this]

theorem startsWithCI_cons {p : Char} {ps l : JStr} (h : startsWithCI (p :: ps) l = true) :
    ∃ c cs, l = c :: cs ∧ lowerCh c = p ∧ startsWithCI ps cs = true := by
  cases l with
  | nil => simp [startsWithCI] at h
  | cons c cs =>
    simp only [startsWithCI, Bool.and_eq_true, decide_eq_true_eq] at h
    exact ⟨c, cs, rfl, h.1, h.2⟩

theorem hexRunLen_cons_hex {c : Char} (h : isHexDigitCh c = true) (t : JStr) :
    hexRunLen (c :: t) = hexRunLen t + 1 := by
  simp [hexRunLen, List.takeWhile_cons, h]

theorem hexRunLen_cons_nonhex {c : Char} (h : isHexDigitCh c = false) (t : JStr) :
    hexRunLen (c :: t) = 0 := by
  simp [hexRunLen, List.takeWhile_cons, h]

theorem hexRunLen_append_lt {a : JStr} (r : JStr) (h : ∃ c ∈ a, isHexDigitCh c = false) :
    hexRunLen (a ++ r) < a.length := by
  induction a with
  | nil => simp at h
  | cons x a' ih =>
    by_cases hx : isHexDigitCh x = true
    · have : ∃ c ∈ a', isHexDigitCh c = false := by
        rcases h with ⟨c, hc, hcf⟩
        rcases List.mem_cons.mp hc with rfl | hc'
        · rw [hx] at hcf; cases hcf
        · exact ⟨c, hc', hcf⟩
      rw [List.cons_append, hexRunLen_cons_hex hx]
      have := ih this
      simp only [List.length_cons]
      omega
    · rw [List.cons_append, hexRunLen_cons_nonhex (by simpa using hx)]
      simp

theorem suffix_append_cases {s a b : JStr} (h : s.IsSuffix (a ++ b)) :
    s.IsSuffix b ∨ ∃ a', a'.IsSuffix a ∧ a' ≠ [] ∧ s = a' ++ b := by
  induction a with
  | nil => left; simpa using h
  | cons x xs ih =>
    rw [List.cons_append] at h
    rcases List.suffix_cons_iff.mp h with h | h
    · right
      exact ⟨x :: xs, List.suffix_rfl, by simp, by simpa using h⟩
    · rcases ih h with h | ⟨a', ha1, ha2, ha3⟩
      · left; exact h
      · right; exact ⟨a', ha1.trans (List.suffix_cons x xs), ha2, ha3⟩

theorem exists_nonhex_of_suffix {s tok : JStr} (hlast : tok.getLast? = some ']')
    (hs : s.IsSuffix tok) (hne : s ≠ []) : ∃ c ∈ s, isHexDigitCh c = false := by
  rcases hs with ⟨pre, rfl⟩
  rw [List.getLast?_append_of_ne_nil pre hne] at hlast
  exact ⟨']', List.mem_of_getLast?_eq_some hlast, by decide⟩

theorem hexRunLen_genScan_le (find : JStr → Option (JStr × Nat)) (hspec : FindSpec find) :
    ∀ fuel l, hexRunLen (genScanF find fuel l) ≤ hexRunLen l := by
  intro fuel
  induction fuel with
  | zero => intro l; simp [genScanF]
  | succ n ih =>
    intro l
    cases l with
    | nil => simp [genScanF]
    | cons c t =>
      cases hf : find (c :: t) with
      | some pr =>
        obtain ⟨tok, k⟩ := pr
        obtain ⟨c', r, htok, hnh, -⟩ := hspec.tokHead _ _ _ hf
        subst htok
        simp only [genScanF, hf]
        rw [List.cons_append, hexRunLen_cons_nonhex hnh]
        exact Nat.zero_le _
      | none =>
        simp only [genScanF, hf]
        by_cases hc : isHexDigitCh c = true
        · rw [hexRunLen_cons_hex hc, hexRunLen_cons_hex hc]
          exact Nat.succ_le_succ (ih t)
        · rw [hexRunLen_cons_nonhex (by simpa using hc)]
          exact Nat.zero_le _

theorem genScan_front (find : JStr → Option (JStr × Nat)) :
    ∀ fuel l, l.length ≤ fuel →
      (genScanF find fuel l = l ∧ ∀ i < l.length, find (l.drop i) = none)
      ∨ ∃ j tok k out2, find (l.drop j) = some (tok, k)
          ∧ (∀ i < j, find (l.drop i) = none)
          ∧ genScanF find fuel l = l.take j ++ tok ++ out2 := by
  intro fuel
  induction fuel with
  | zero =>
    intro l hl
    have : l = [] := List.length_eq_zero.mp (Nat.le_zero.mp hl)
    subst this
    exact Or.inl ⟨rfl, by simp⟩
  | succ n ih =>
    intro l hl
    cases l with
    | nil => exact Or.inl ⟨rfl, by simp⟩
    | cons c t =>
      cases hf : find (c :: t) with
      | some pr =>
        obtain ⟨tok, k⟩ := pr
        refine Or.inr ⟨0, tok, k, genScanF find n (List.drop (k - 1) t), by simpa using hf,
          by simp, ?_⟩
        rw [genScanF, hf]
        simp
      | none =>
        have ht : t.length ≤ n := by
          simp only [List.length_cons] at hl
          omega
        rcases ih t ht with ⟨heq, hnone⟩ | ⟨j, tok, k, out2, hfj, hlt, heq⟩
        · refine Or.inl ⟨?_, ?_⟩
          · rw [genScanF, hf, heq]
          · intro i hi
            cases i with
            | zero => simpa using hf
            | succ i' =>
              simp only [List.drop_succ_cons]
              exact hnone i' (by simpa using Nat.lt_of_succ_lt_succ hi)
        · refine Or.inr ⟨j + 1, tok, k, out2, by simpa using hfj, ?_, ?_⟩
          · intro i hi
            cases i with
            | zero => simpa using hf
            | succ i' =>
              simp only [List.drop_succ_cons]
              exact hlt i' (Nat.lt_of_succ_lt_succ hi)
          · rw [genScanF, hf, heq]
            simp

/-! ## Sanitizer proofs (C7): matcher specifications -/

theorem findHex64_eq {l tok : JStr} {k : Nat} (hf : findHex64 l = some (tok, k)) :
    tok = strL "[hex-key]" ∧ k = 64
      ∧ (l.take 64).length = 64 ∧ (l.take 64).all isHexDigitCh = true := by
  unfold findHex64 at hf
  split at hf
  · rename_i hcond
    simp only [Bool.and_eq_true, decide_eq_true_eq] at hcond
    simp only [Option.some.injEq, Prod.mk.injEq] at hf
    exact ⟨hf.1.symm, hf.2.symm, hcond.1, hcond.2⟩
  · cases hf

theorem findSpec_findHex64 : FindSpec findHex64 := by
  refine ⟨?_, ?_, ?_, ?_, ?_, ?_, ?_⟩ <;> intro l tok k hf <;>
    obtain ⟨htok, hk, hlen, hall⟩ := findHex64_eq hf
  · omega
  · subst htok; decide
  · subst htok; decide
  · subst htok; decide
  · subst htok; decide
  · subst htok
    exact ⟨'[', _, rfl, by decide, by decide, by decide, by decide⟩
  · cases l with
    | nil => simp at hlen
    | cons c r =>
      refine ⟨c, r, rfl, ?_⟩
      have hmem : c ∈ (c :: r).take 64 := by
        rw [show (64 : Nat) = 63 + 1 from rfl, List.take_succ_cons]
        exact List.mem_cons_self _ _
      exact alnum_of_hex (List.all_eq_true.mp hall c hmem)

theorem findNsec_eq {l tok : JStr} {k : Nat} (hf : findNsec l = some (tok, k)) :
    tok = strL "[nsec]" ∧ startsWithCI (strL "nsec") l = true ∧ 4 ≤ k := by
  unfold findNsec at hf
  split at hf
  · rename_i hstart
    simp only [] at hf
    split at hf
    · cases hf
    · simp only [Option.some.injEq, Prod.mk.injEq] at hf
      exact ⟨hf.1.symm, hstart, by omega⟩
  · cases hf

theorem findSpec_findNsec : FindSpec findNsec := by
  refine ⟨?_, ?_, ?_, ?_, ?_, ?_, ?_⟩ <;> intro l tok k hf <;>
    obtain ⟨htok, hstart, hk⟩ := findNsec_eq hf
  · omega
  · subst htok; decide
  · subst htok; decide
  · subst htok; decide
  · subst htok; decide
  · subst htok
    exact ⟨'[', _, rfl, by decide, by decide, by decide, by decide⟩
  · rw [strL_nsec] at hstart
    obtain ⟨c, cs, rfl, hlow, -⟩ := startsWithCI_cons hstart
    exact ⟨c, cs, rfl, alnum_of_lower (by decide) hlow⟩

theorem findKeyPat_eq {lead tokP l tok : JStr} {k : Nat}
    (hf : findKeyPat lead tokP l = some (tok, k)) :
    tok = tokP ∧ startsWithCI lead l = true ∧ 4 ≤ k := by
  unfold findKeyPat at hf
  split at hf
  · rename_i hstart
    simp only [] at hf
    cases hb : bestKeyJ (l.drop lead.length) with
    | none => rw [hb] at hf; cases hf
    | some j =>
      rw [hb] at hf
      simp only [Option.some.injEq, Prod.mk.injEq] at hf
      exact ⟨hf.1.symm, hstart, by omega⟩
  · cases hf

theorem findEnvPat_eq {lead tokP l tok : JStr} {k : Nat}
    (hf : findEnvPat lead tokP l = some (tok, k)) :
    tok = tokP ∧ startsWithCI lead l = true ∧ 1 ≤ k := by
  unfold findEnvPat at hf
  split at hf
  · rename_i hstart
    cases hd : l.drop lead.length with
    | nil => rw [hd] at hf; cases hf
    | cons c rest =>
      rw [hd] at hf
      simp only [] at hf
      split at hf
      · split at hf
        · cases hf
        · simp only [Option.some.injEq, Prod.mk.injEq] at hf
          exact ⟨hf.1.symm, hstart, by omega⟩
      · cases hf
  · cases hf

theorem findSpec_findKeyPat (p : Char) (ps tokP : JStr)
    (hp : isLowerCh p = true)
    (hlast : tokP.getLast? = some ']') (hlen5 : 5 ≤ tokP.length) (hlen64 : tokP.length < 64)
    (hsafe : tokSafeB tokP = true)
    (hhead : ∃ c r, tokP = c :: r ∧ isHexDigitCh c = false
      ∧ lowerCh c ≠ 's' ∧ lowerCh c ≠ 'e' ∧ lowerCh c ≠ 'c') :
    FindSpec (findKeyPat (p :: ps) tokP) := by
  refine ⟨?_, ?_, ?_, ?_, ?_, ?_, ?_⟩ <;> intro l tok k hf <;>
    obtain ⟨htok, hstart, hk⟩ := findKeyPat_eq hf
  · omega
  · subst htok; exact hlast
  · subst htok; exact hlen5
  · subst htok; exact hlen64
  · subst htok; exact hsafe
  · subst htok; exact hhead
  · obtain ⟨c, cs, rfl, hlow, -⟩ := startsWithCI_cons hstart
    exact ⟨c, cs, rfl, alnum_of_lower hp hlow⟩

theorem findSpec_findEnvPat (p : Char) (ps tokP : JStr)
    (hp : isLowerCh p = true)
    (hlast : tokP.getLast? = some ']') (hlen5 : 5 ≤ tokP.length) (hlen64 : tokP.length < 64)
    (hsafe : tokSafeB tokP = true)
    (hhead : ∃ c r, tokP = c :: r ∧ isHexDigitCh c = false
      ∧ lowerCh c ≠ 's' ∧ lowerCh c ≠ 'e' ∧ lowerCh c ≠ 'c') :
    FindSpec (findEnvPat (p :: ps) tokP) := by
  refine ⟨?_, ?_, ?_, ?_, ?_, ?_, ?_⟩ <;> intro l tok k hf <;>
    obtain ⟨htok, hstart, hk⟩ := findEnvPat_eq hf
  · omega
  · subst htok; exact hlast
  · subst htok; exact hlen5
  · subst htok; exact hlen64
  · subst htok; exact hsafe
  · subst htok; exact hhead
  · obtain ⟨c, cs, rfl, hlow, -⟩ := startsWithCI_cons hstart
    exact ⟨c, cs, rfl, alnum_of_lower hp hlow⟩

theorem findSpec_priv : FindSpec (findKeyPat (strL "private") (strL "[private-key]")) :=
  findSpec_findKeyPat 'p' (strL "rivate") (strL "[private-key]") (by decide) (by decide)
    (by decide) (by decide) (by decide)
    ⟨'[', _, rfl, by decide, by decide, by decide, by decide⟩

theorem findSpec_secretKey : FindSpec (findKeyPat (strL "secret") (strL "[secret-key]")) :=
  findSpec_findKeyPat 's' (strL "ecret") (strL "[secret-key]") (by decide) (by decide)
    (by decide) (by decide) (by decide)
    ⟨'[', _, rfl, by decide, by decide, by decide, by decide⟩

theorem findSpec_env1 :
    FindSpec (findEnvPat (strL "nostrgit_secret_key") (strL "NOSTRGIT_SECRET_KEY=[redacted]")) :=
  findSpec_findEnvPat 'n' (strL "ostrgit_secret_key") (strL "NOSTRGIT_SECRET_KEY=[redacted]")
    (by decide) (by decide) (by decide) (by decide) (by decide)
    ⟨'N', _, rfl, by decide, by decide, by decide, by decide⟩

theorem findSpec_env2 :
    FindSpec (findEnvPat (strL "nostr_private_key") (strL "NOSTR_PRIVATE_KEY=[redacted]")) :=
  findSpec_findEnvPat 'n' (strL "ostr_private_key") (strL "NOSTR_PRIVATE_KEY=[redacted]")
    (by decide) (by decide) (by decide) (by decide) (by decide)
    ⟨'N', _, rfl, by decide, by decide, by decide, by decide⟩

theorem findSpec_env3 : FindSpec (findEnvPat (strL "nsec") (strL "NSEC=[redacted]")) :=
  findSpec_findEnvPat 'n' (strL "sec") (strL "NSEC=[redacted]")
    (by decide) (by decide) (by decide) (by decide) (by decide)
    ⟨'N', _, rfl, by decide, by decide, by decide, by decide⟩

/-! ## Sanitizer proofs (C7): the hexadecimal-run property -/

theorem take_window_of_hexRunLen {l : JStr} (h : 64 ≤ hexRunLen l) :
    (l.take 64).length = 64 ∧ (l.take 64).all isHexDigitCh = true := by
  have hw : 64 ≤ (l.takeWhile isHexDigitCh).length := h
  have hlen : 64 ≤ l.length := le_trans hw (List.takeWhile_sublist _).length_le
  constructor
  · rw [List.length_take]; omega
  · have hsplit : l.takeWhile isHexDigitCh ++ l.dropWhile isHexDigitCh = l :=
      List.takeWhile_append_dropWhile isHexDigitCh l
    have heq : l.take 64 = (l.takeWhile isHexDigitCh).take 64 := by
      conv_lhs => rw [← hsplit]
      rw [List.take_append_of_le_length hw]
    rw [heq]
    refine List.all_eq_true.mpr ?_
    intro x hx
    exact List.mem_takeWhile_imp (List.mem_of_mem_take hx)

theorem findHex64_none_bound {l : JStr} (h : findHex64 l = none) : hexRunLen l < 64 := by
  by_contra hge
  push_neg at hge
  obtain ⟨h1, h2⟩ := take_window_of_hexRunLen hge
  unfold findHex64 at h
  rw [if_pos (by simp [h1, h2])] at h
  cases h

theorem hexRunLen_ge_take_all :
    ∀ (n : Nat) (t : JStr), (t.take n).all isHexDigitCh = true → min n t.length ≤ hexRunLen t := by
  intro n
  induction n with
  | zero => intro t h; simp
  | succ m ih =>
    intro t h
    cases t with
    | nil => simp
    | cons c t' =>
      rw [List.take_succ_cons] at h
      simp only [List.all_cons, Bool.and_eq_true] at h
      rw [hexRunLen_cons_hex h.1]
      have := ih t' h.2
      simp only [List.length_cons]
      omega

theorem noHex64_genScanF_findHex64 :
    ∀ fuel l, l.length ≤ fuel → noHex64 (genScanF findHex64 fuel l) := by
  intro fuel
  induction fuel with
  | zero =>
    intro l hl
    have hnil : l = [] := List.length_eq_zero.mp (Nat.le_zero.mp hl)
    subst hnil
    intro s hs
    simp only [genScanF] at hs
    rw [List.suffix_nil.mp hs]
    decide
  | succ n ih =>
    intro l hl
    cases l with
    | nil =>
      intro s hs
      simp only [genScanF] at hs
      rw [List.suffix_nil.mp hs]
      decide
    | cons c t =>
      have ht : t.length ≤ n := by simp only [List.length_cons] at hl; omega
      cases hf : findHex64 (c :: t) with
      | some pr =>
        obtain ⟨tok, k⟩ := pr
        obtain ⟨htok, hk, -, -⟩ := findHex64_eq hf
        subst htok hk
        intro s hs
        simp only [genScanF, hf] at hs
        rcases suffix_append_cases hs with hsuf | ⟨a', ha', hne, rfl⟩
        · exact ih _ (by rw [List.length_drop]; omega) s hsuf
        · have hlt := hexRunLen_append_lt (genScanF findHex64 n (List.drop (64 - 1) t))
            (exists_nonhex_of_suffix (by decide) ha' hne)
          have hle : a'.length ≤ 9 := le_trans ha'.length_le (by decide)
          omega
      | none =>
        intro s hs
        simp only [genScanF, hf] at hs
        rcases List.suffix_cons_iff.mp hs with rfl | hsuf
        · by_cases hc : isHexDigitCh c = true
          · rw [hexRunLen_cons_hex hc]
            have h1 : hexRunLen (genScanF findHex64 n t) ≤ hexRunLen t :=
              hexRunLen_genScan_le _ findSpec_findHex64 n t
            have h2 : hexRunLen (c :: t) < 64 := findHex64_none_bound hf
            rw [hexRunLen_cons_hex hc] at h2
            omega
          · rw [hexRunLen_cons_nonhex (by simpa using hc)]
            omega
        · exact ih t ht s hsuf

theorem noHex64_genScanF_preserve (find : JStr → Option (JStr × Nat)) (hspec : FindSpec find) :
    ∀ fuel l, l.length ≤ fuel → noHex64 l → noHex64 (genScanF find fuel l) := by
  intro fuel
  induction fuel with
  | zero =>
    intro l hl hprop
    have hnil : l = [] := List.length_eq_zero.mp (Nat.le_zero.mp hl)
    subst hnil
    intro s hs
    simp only [genScanF] at hs
    rw [List.suffix_nil.mp hs]
    decide
  | succ n ih =>
    intro l hl hprop
    cases l with
    | nil =>
      intro s hs
      simp only [genScanF] at hs
      rw [List.suffix_nil.mp hs]
      decide
    | cons c t =>
      have ht : t.length ≤ n := by simp only [List.length_cons] at hl; omega
      have htprop : noHex64 t := fun s hs => hprop s (hs.trans (List.suffix_cons c t))
      cases hf : find (c :: t) with
      | some pr =>
        obtain ⟨tok, k⟩ := pr
        intro s hs
        simp only [genScanF, hf] at hs
        rcases suffix_append_cases hs with hsuf | ⟨a', ha', hne, rfl⟩
        · exact ih _ (by rw [List.length_drop]; omega)
            (fun s' hs' => htprop s' (hs'.trans (List.drop_suffix _ _))) s hsuf
        · have hlt := hexRunLen_append_lt (genScanF find n (List.drop (k - 1) t))
            (exists_nonhex_of_suffix (hspec.tokLast _ _ _ hf) ha' hne)
          have h64 : tok.length < 64 := hspec.tokLen64 _ _ _ hf
          have hle := ha'.length_le
          omega
      | none =>
        intro s hs
        simp only [genScanF, hf] at hs
        rcases List.suffix_cons_iff.mp hs with rfl | hsuf
        · by_cases hc : isHexDigitCh c = true
          · rw [hexRunLen_cons_hex hc]
            have h1 : hexRunLen (genScanF find n t) ≤ hexRunLen t :=
              hexRunLen_genScan_le _ hspec n t
            have h2 : hexRunLen (c :: t) < 64 := hprop _ List.suffix_rfl
            rw [hexRunLen_cons_hex hc] at h2
            omega
          · rw [hexRunLen_cons_nonhex (by simpa using hc)]
            omega
        · exact ih t ht htprop s hsuf

/-! ## Sanitizer proofs (C7): the nsec-fragment property -/

theorem nsecHitB_append_left {a : JStr} (r : JStr) (h : 5 ≤ a.length) :
    nsecHitB (a ++ r) = nsecHitB a := by
  rcases a with (_ | ⟨c0, (_ | ⟨c1, (_ | ⟨c2, (_ | ⟨c3, (_ | ⟨c4, rest⟩)⟩)⟩)⟩)⟩) <;>
    simp only [List.length_nil, List.length_cons] at h
  · omega
  · omega
  · omega
  · omega
  · omega
  · simp [nsecHitB, strL_nsec, startsWithCI]

theorem nsecHitB_take {l : JStr} {j : Nat} (h5 : 5 ≤ j) (hj : j ≤ l.length) (r : JStr) :
    nsecHitB (l.take j ++ r) = nsecHitB l := by
  have hlen : 5 ≤ (l.take j).length := by rw [List.length_take]; omega
  rw [nsecHitB_append_left r hlen]
  conv_rhs => rw [← List.take_append_drop j l]
  rw [nsecHitB_append_left _ hlen]

theorem nsecHitB_append_ciPre {a r : JStr} (hlen : a.length ≤ 4)
    (h : nsecHitB (a ++ r) = true) : ciPreOf (strL "nsec") a = true := by
  rcases a with (_ | ⟨c0, (_ | ⟨c1, (_ | ⟨c2, (_ | ⟨c3, (_ | ⟨c4, rest⟩)⟩)⟩)⟩)⟩)
  · rfl
  · simp only [List.cons_append, List.nil_append, nsecHitB, strL_nsec, startsWithCI,
      Bool.and_eq_true, decide_eq_true_eq] at h
    simp [ciPreOf, strL_nsec, h.1.1]
  · simp only [List.cons_append, List.nil_append, nsecHitB, strL_nsec, startsWithCI,
      Bool.and_eq_true, decide_eq_true_eq] at h
    simp [ciPreOf, strL_nsec, h.1.1, h.1.2.1]
  · simp only [List.cons_append, List.nil_append, nsecHitB, strL_nsec, startsWithCI,
      Bool.and_eq_true, decide_eq_true_eq] at h
    simp [ciPreOf, strL_nsec, h.1.1, h.1.2.1, h.1.2.2.1]
  · simp only [List.cons_append, List.nil_append, nsecHitB, strL_nsec, startsWithCI,
      Bool.and_eq_true, decide_eq_true_eq] at h
    simp [ciPreOf, strL_nsec, h.1.1, h.1.2.1, h.1.2.2.1, h.1.2.2.2.1]
  · simp only [List.length_cons] at hlen; omega

theorem nsecHitB_of_ciPre4 {a : JStr} (hlen : a.length = 4)
    (hci : ciPreOf (strL "nsec") a = true) {c : Char} {r' : JStr}
    (hc : isAlnum36 c = true) : nsecHitB (a ++ c :: r') = true := by
  rcases a with (_ | ⟨c0, (_ | ⟨c1, (_ | ⟨c2, (_ | ⟨c3, (_ | ⟨c4, rest⟩)⟩)⟩)⟩)⟩) <;>
    simp only [List.length_nil, List.length_cons] at hlen
  · omega
  · omega
  · omega
  · omega
  · simp only [ciPreOf, strL_nsec, Bool.and_eq_true, decide_eq_true_eq] at hci
    simp [nsecHitB, strL_nsec, startsWithCI, hci.1, hci.2.1, hci.2.2.1, hci.2.2.2.1, hc]
  · omega

theorem nsecHit_boundary {a : JStr} {c' : Char} {rest : JStr}
    (hhit : nsecHitB (a ++ c' :: rest) = true) :
    (a.length = 1 → lowerCh c' = 's')
    ∧ (a.length = 2 → lowerCh c' = 'e')
    ∧ (a.length = 3 → lowerCh c' = 'c')
    ∧ (a.length = 4 → isAlnum36 c' = true ∧ ciPreOf (strL "nsec") a = true) := by
  rcases a with (_ | ⟨a0, (_ | ⟨a1, (_ | ⟨a2, (_ | ⟨a3, arest⟩)⟩)⟩)⟩)
  · refine ⟨?_, ?_, ?_, ?_⟩ <;> intro hl <;> simp at hl
  · refine ⟨fun _ => ?_, ?_, ?_, ?_⟩
    · simp only [List.cons_append, List.nil_append, nsecHitB, strL_nsec, startsWithCI,
        Bool.and_eq_true, decide_eq_true_eq] at hhit
      exact hhit.1.2.1
    all_goals intro hl; simp at hl
  · refine ⟨?_, fun _ => ?_, ?_, ?_⟩
    · intro hl; simp at hl
    · simp only [List.cons_append, List.nil_append, nsecHitB, strL_nsec, startsWithCI,
        Bool.and_eq_true, decide_eq_true_eq] at hhit
      exact hhit.1.2.2.1
    all_goals intro hl; simp at hl
  · refine ⟨?_, ?_, fun _ => ?_, ?_⟩
    · intro hl; simp at hl
    · intro hl; simp at hl
    · simp only [List.cons_append, List.nil_append, nsecHitB, strL_nsec, startsWithCI,
        Bool.and_eq_true, decide_eq_true_eq] at hhit
      exact hhit.1.2.2.2.1
    · intro hl; simp at hl
  · refine ⟨?_, ?_, ?_, ?_⟩ <;> intro hl <;>
      simp only [List.length_cons] at hl
    · omega
    · omega
    · omega
    · have harest : arest = [] := List.length_eq_zero.mp (by omega)
      subst harest
      simp only [List.cons_append, List.nil_append, nsecHitB, strL_nsec, startsWithCI,
        Bool.and_eq_true, decide_eq_true_eq] at hhit
      refine ⟨?_, ?_⟩
      · rcases hhit with ⟨-, hm⟩
        revert hm
        simp only [List.drop_succ_cons, List.drop_zero]
        intro hm
        exact hm
      · simp [ciPreOf, strL_nsec, hhit.1.1, hhit.1.2.1, hhit.1.2.2.1, hhit.1.2.2.2.1]

theorem tokSafe_suffix {tok a : JStr} (hsafe : tokSafeB tok = true) (ha : a.IsSuffix tok)
    (hne : a ≠ []) :
    (5 ≤ a.length → nsecHitB a = false) ∧ (a.length < 5 → ciPreOf (strL "nsec") a = false) := by
  have hmem : a ∈ tok.tails := (List.mem_tails _ _).mpr ha
  have hh := List.all_eq_true.mp hsafe a hmem
  rw [Bool.or_eq_true] at hh
  rcases hh with hh | hh
  · rw [List.isEmpty_iff] at hh
    exact absurd hh hne
  · constructor
    · intro h5
      rw [if_pos h5] at hh
      simpa using hh
    · intro h4
      rw [if_neg (by omega)] at hh
      simpa using hh

theorem findNsec_some_of_hit {l : JStr} (h : nsecHitB l = true) : findNsec l ≠ none := by
  intro hnone
  unfold findNsec at hnone
  simp only [nsecHitB, Bool.and_eq_true] at h
  obtain ⟨hstart, hmatch⟩ := h
  rw [if_pos hstart] at hnone
  cases hd : l.drop 4 with
  | nil => rw [hd] at hmatch; simp at hmatch
  | cons c rest =>
    rw [hd] at hmatch
    simp only [] at hnone
    rw [hd, List.takeWhile_cons, if_pos hmatch] at hnone
    simp at hnone

theorem nsecHitB_genScan_whole (find : JStr → Option (JStr × Nat)) (hspec : FindSpec find) :
    ∀ fuel l, l.length ≤ fuel → nsecHitB l = false →
      nsecHitB (genScanF find fuel l) = false := by
  intro fuel l hl hprop
  rcases genScan_front find fuel l hl with ⟨heq, -⟩ | ⟨j, tok, k, out2, hfj, -, heq⟩
  · rw [heq]; exact hprop
  · rw [heq]
    obtain ⟨c', r', htok, -, hns, hne', hnc⟩ := hspec.tokHead _ _ _ hfj
    obtain ⟨cj, rj, hdrop, halnum⟩ := hspec.matchAlnum _ _ _ hfj
    have hjlen : j < l.length := by
      by_contra hge
      push_neg at hge
      rw [List.drop_eq_nil_of_le hge] at hdrop
      cases hdrop
    have h5 : 5 ≤ tok.length := hspec.tokLen5 _ _ _ hfj
    have htakelen : (l.take j).length = j := by rw [List.length_take]; omega
    rcases Nat.lt_or_ge j 5 with hj5 | hj5
    · by_contra hhit
      rw [Bool.not_eq_false] at hhit
      subst htok
      have hhit' : nsecHitB (l.take j ++ c' :: (r' ++ out2)) = true := by
        simpa [List.append_assoc] using hhit
      have hb := nsecHit_boundary hhit'
      rcases Nat.lt_or_ge j 1 with hj | _
      · -- j = 0 : the whole match is token-headed
        have hj0 : j = 0 := by omega
        subst hj0
        have hfull : nsecHitB ((c' :: r') ++ out2) = nsecHitB (c' :: r') :=
          nsecHitB_append_left out2 h5
        have hfalse : nsecHitB (c' :: r') = false :=
          (tokSafe_suffix (hspec.tokSafe _ _ _ hfj) List.suffix_rfl (by simp)).1 h5
        rw [List.take_zero, List.nil_append, ← List.cons_append, hfull, hfalse] at hhit'
        cases hhit'
      · rcases Nat.lt_or_ge j 4 with hj4 | _
        · rcases Nat.lt_or_ge j 2 with hj2 | hj2
          · exact hns (hb.1 (by omega))
          · rcases Nat.lt_or_ge j 3 with hj3 | hj3
            · exact hne' (hb.2.1 (by omega))
            · exact hnc (hb.2.2.1 (by omega))
        · -- j = 4 : the input itself had a match
          have hj4' : j = 4 := by omega
          subst hj4'
          obtain ⟨-, hci⟩ := hb.2.2.2 htakelen
          have : nsecHitB (l.take 4 ++ cj :: rj) = true :=
            nsecHitB_of_ciPre4 htakelen hci halnum
          rw [← hdrop, List.take_append_drop] at this
          rw [hprop] at this
          cases this
    · rw [List.append_assoc, nsecHitB_take hj5 (le_of_lt hjlen)]
      exact hprop

theorem nsecHitB_scanNsec_whole :
    ∀ fuel l, l.length ≤ fuel → nsecHitB (genScanF findNsec fuel l) = false := by
  intro fuel l hl
  rcases genScan_front findNsec fuel l hl with ⟨heq, hnone⟩ | ⟨j, tok, k, out2, hfj, hlt, heq⟩
  · rw [heq]
    by_contra hhit
    rw [Bool.not_eq_false] at hhit
    have hlne : l ≠ [] := by
      intro h
      subst h
      simp [nsecHitB, startsWithCI, strL_nsec] at hhit
    have h0 : findNsec l = none := by
      have := hnone 0 (List.length_pos.mpr hlne)
      simpa using this
    exact findNsec_some_of_hit hhit h0
  · rw [heq]
    obtain ⟨htok, hstart, -⟩ := findNsec_eq hfj
    subst htok
    have hjlen : j < l.length := by
      by_contra hge
      push_neg at hge
      rw [List.drop_eq_nil_of_le hge] at hstart
      simp [startsWithCI, strL_nsec] at hstart
    have htakelen : (l.take j).length = j := by rw [List.length_take]; omega
    by_contra hhit
    rw [Bool.not_eq_false] at hhit
    rcases Nat.lt_or_ge j 5 with hj5 | hj5
    · have hhit' : nsecHitB (l.take j ++ '[' :: (strL "nsec]" ++ out2)) = true := by
        rw [show (strL "[nsec]" : JStr) = '[' :: strL "nsec]" from rfl, List.append_assoc] at hhit
        simpa [List.cons_append] using hhit
      have hb := nsecHit_boundary hhit'
      rcases Nat.lt_or_ge j 1 with hj | _
      · have hj0 : j = 0 := by omega
        subst hj0
        rw [List.take_zero, List.nil_append] at hhit'
        have hlc : lowerCh '[' = '[' := by decide
        have hx : nsecHitB ('[' :: (strL "nsec]" ++ out2)) = false := by
          simp [nsecHitB, strL_nsec, startsWithCI, hlc]
        rw [hx] at hhit'
        cases hhit'
      · rcases Nat.lt_or_ge j 4 with hj4 | _
        · rcases Nat.lt_or_ge j 2 with hj2 | hj2
          · exact absurd (hb.1 (by omega)) (by decide)
          · rcases Nat.lt_or_ge j 3 with hj3 | hj3
            · exact absurd (hb.2.1 (by omega)) (by decide)
            · exact absurd (hb.2.2.1 (by omega)) (by decide)
        · have hj4' : j = 4 := by omega
          subst hj4'
          obtain ⟨halnum, -⟩ := hb.2.2.2 htakelen
          exact absurd halnum (by decide)
    · rw [List.append_assoc, nsecHitB_take hj5 (le_of_lt hjlen) _] at hhit
      have h0 : findNsec l = none := by
        have := hlt 0 (by omega)
        simpa using this
      exact findNsec_some_of_hit hhit h0

theorem noNsec_genScanF_preserve (find : JStr → Option (JStr × Nat)) (hspec : FindSpec find) :
    ∀ fuel l, l.length ≤ fuel → noNsec l → noNsec (genScanF find fuel l) := by
  intro fuel
  induction fuel with
  | zero =>
    intro l hl hprop
    have hnil : l = [] := List.length_eq_zero.mp (Nat.le_zero.mp hl)
    subst hnil
    intro s hs
    simp only [genScanF] at hs
    rw [List.suffix_nil.mp hs]
    rfl
  | succ n ih =>
    intro l hl hprop
    cases l with
    | nil =>
      intro s hs
      simp only [genScanF] at hs
      rw [List.suffix_nil.mp hs]
      rfl
    | cons c t =>
      have ht : t.length ≤ n := by simp only [List.length_cons] at hl; omega
      have htprop : noNsec t := fun s hs => hprop s (hs.trans (List.suffix_cons c t))
      cases hf : find (c :: t) with
      | some pr =>
        obtain ⟨tok, k⟩ := pr
        intro s hs
        simp only [genScanF, hf] at hs
        rcases suffix_append_cases hs with hsuf | ⟨a', ha', hne, rfl⟩
        · exact ih _ (by rw [List.length_drop]; omega)
            (fun s' hs' => htprop s' (hs'.trans (List.drop_suffix _ _))) s hsuf
        · have hts := tokSafe_suffix (hspec.tokSafe _ _ _ hf) ha' hne
          rcases Nat.lt_or_ge a'.length 5 with h4 | h5
          · by_contra hhit
            rw [Bool.not_eq_false] at hhit
            have := nsecHitB_append_ciPre (by omega) hhit
            rw [hts.2 h4] at this
            cases this
          · rw [nsecHitB_append_left _ h5]
            exact hts.1 h5
      | none =>
        intro s hs
        simp only [genScanF, hf] at hs
        rcases List.suffix_cons_iff.mp hs with rfl | hsuf
        · have hwhole := nsecHitB_genScan_whole find hspec (n + 1) (c :: t) hl
            (hprop _ List.suffix_rfl)
          simpa [genScanF, hf] using hwhole
        · exact ih t ht htprop s hsuf

theorem noNsec_genScanF_findNsec :
    ∀ fuel l, l.length ≤ fuel → noNsec (genScanF findNsec fuel l) := by
  intro fuel
  induction fuel with
  | zero =>
    intro l hl
    have hnil : l = [] := List.length_eq_zero.mp (Nat.le_zero.mp hl)
    subst hnil
    intro s hs
    simp only [genScanF] at hs
    rw [List.suffix_nil.mp hs]
    rfl
  | succ n ih =>
    intro l hl
    cases l with
    | nil =>
      intro s hs
      simp only [genScanF] at hs
      rw [List.suffix_nil.mp hs]
      rfl
    | cons c t =>
      have ht : t.length ≤ n := by simp only [List.length_cons] at hl; omega
      cases hf : findNsec (c :: t) with
      | some pr =>
        obtain ⟨tok, k⟩ := pr
        obtain ⟨htok, -, -⟩ := findNsec_eq hf
        subst htok
        intro s hs
        simp only [genScanF, hf] at hs
        rcases suffix_append_cases hs with hsuf | ⟨a', ha', hne, rfl⟩
        · exact ih _ (by rw [List.length_drop]; omega) s hsuf
        · have hts := tokSafe_suffix (by decide) ha' hne
          rcases Nat.lt_or_ge a'.length 5 with h4 | h5
          · by_contra hhit
            rw [Bool.not_eq_false] at hhit
            have := nsecHitB_append_ciPre (by omega) hhit
            rw [hts.2 h4] at this
            cases this
          · rw [nsecHitB_append_left _ h5]
            exact hts.1 h5
      | none =>
        intro s hs
        simp only [genScanF, hf] at hs
        rcases List.suffix_cons_iff.mp hs with rfl | hsuf
        · have hwhole := nsecHitB_scanNsec_whole (n + 1) (c :: t) hl
          simpa [genScanF, hf] using hwhole
        · exact ih t ht s hsuf

/-! ## Sanitizer proofs (C7): from suffix properties to the claimed predicates -/

theorem hasNsecFragB_eq_false_iff (l : JStr) : hasNsecFragB l = false ↔ noNsec l := by
  constructor
  · intro h s hs
    by_contra hhit
    rw [Bool.not_eq_false] at hhit
    have : hasNsecFragB l = true :=
      List.any_eq_true.mpr ⟨s, (List.mem_tails _ _).mpr hs, hhit⟩
    rw [h] at this
    cases this
  · intro h
    by_contra hany
    rw [Bool.not_eq_false] at hany
    obtain ⟨s, hmem, hhit⟩ := List.any_eq_true.mp hany
    rw [h s ((List.mem_tails _ _).mp hmem)] at hhit
    cases hhit

theorem hasHex64RunB_eq_false_iff (l : JStr) : hasHex64RunB l = false ↔ noHex64 l := by
  constructor
  · intro h s hs
    by_contra hge
    push_neg at hge
    obtain ⟨h1, h2⟩ := take_window_of_hexRunLen hge
    have : hasHex64RunB l = true :=
      List.any_eq_true.mpr ⟨s, (List.mem_tails _ _).mpr hs, by simp [h1, h2]⟩
    rw [h] at this
    cases this
  · intro h
    by_contra hany
    rw [Bool.not_eq_false] at hany
    obtain ⟨s, hmem, hwin⟩ := List.any_eq_true.mp hany
    simp only [Bool.and_eq_true, decide_eq_true_eq] at hwin
    have hrun : 64 ≤ hexRunLen s := by
      have := hexRunLen_ge_take_all 64 s hwin.2
      have hs64 : 64 ≤ s.length := by
        have := hwin.1
        rw [List.length_take] at this
        omega
      omega
    have := h s ((List.mem_tails _ _).mp hmem)
    omega

theorem sanitize_no_leak (m : JStr) :
    noHex64 (sanitizeErrorMessage m) ∧ noNsec (sanitizeErrorMessage m) := by
  by_cases hm : m = []
  · subst hm
    have he : sanitizeErrorMessage [] = [] := rfl
    rw [he]
    constructor
    · intro s hs; rw [List.suffix_nil.mp hs]; decide
    · intro s hs; rw [List.suffix_nil.mp hs]; rfl
  · rw [sanitizeErrorMessage, if_neg hm]
    have h1   : noNsec (runPass findNsec m) :=
      noNsec_genScanF_findNsec m.length m le_rfl
    have h2h  : noHex64 (runPass findHex64 (runPass findNsec m)) :=
      noHex64_genScanF_findHex64 _ _ le_rfl
    have h2n  : noNsec (runPass findHex64 (runPass findNsec m)) :=
      noNsec_genScanF_preserve _ findSpec_findHex64 _ _ le_rfl h1
    have h3h := noHex64_genScanF_preserve _ findSpec_priv _ _ le_rfl h2h
    have h3n := noNsec_genScanF_preserve _ findSpec_priv _ _ le_rfl h2n
    have h4h := noHex64_genScanF_preserve _ findSpec_secretKey _ _ le_rfl h3h
    have h4n := noNsec_genScanF_preserve _ findSpec_secretKey _ _ le_rfl h3n
    have h5h := noHex64_genScanF_preserve _ findSpec_env1 _ _ le_rfl h4h
    have h5n := noNsec_genScanF_preserve _ findSpec_env1 _ _ le_rfl h4n
    have h6h := noHex64_genScanF_preserve _ findSpec_env2 _ _ le_rfl h5h
    have h6n := noNsec_genScanF_preserve _ findSpec_env2 _ _ le_rfl h5n
    have h7h := noHex64_genScanF_preserve _ findSpec_env3 _ _ le_rfl h6h
    have h7n := noNsec_genScanF_preserve _ findSpec_env3 _ _ le_rfl h6n
    exact ⟨h7h, h7n⟩

/-- C7 counterexample: the fragment `secret=hunter2` — a `secret=`-shaped
fragment carrying a value — passes through `sanitizeErrorMessage` unchanged
(the source patterns require `private`/`secret` to be followed by `key[=:]` or
an environment-variable name), so such fragments are not replaced by a
redaction marker. -/
theorem C7_counterexample :
    sanitizeErrorMessage (strL "secret=hunter2") = strL "secret=hunter2"
    ∧ hasSecretEqFrag (sanitizeErrorMessage (strL "secret=hunter2")) = true := by
  constructor
  · rfl
  · decide

/-- C7 (amended): for every input, the sanitized output contains no run of 64
or more consecutive hexadecimal digits and no nsec-prefixed encoded-key
substring; value-carrying fragments of the five specific disclosure shapes
(`private…key[=:]`, `secret…key[=:]`, and the three environment-variable
names) are rewritten so that the value is replaced by a redaction marker, but
a bare `key=`/`secret=` fragment without those lead patterns is not redacted. -/
theorem C7_sanitize_output (m : JStr) :
    hasHex64RunB (sanitizeErrorMessage m) = false
    ∧ hasNsecFragB (sanitizeErrorMessage m) = false
    ∧ sanitizeErrorMessage (strL "private key: hunter2") = strL "[private-key]"
    ∧ sanitizeErrorMessage (strL "secret key: s3cret") = strL "[secret-key]"
    ∧ sanitizeErrorMessage (strL "NSEC=abc") = strL "NSEC=[redacted]"
    ∧ sanitizeErrorMessage (strL "NOSTRGIT_SECRET_KEY=abc123") = strL "NOSTRGIT_[secret-key]"
    ∧ sanitizeErrorMessage (strL "NOSTR_PRIVATE_KEY=abc") = strL "NOSTR_[private-key]" := by
  obtain ⟨hh, hn⟩ := sanitize_no_leak m
  exact ⟨(hasHex64RunB_eq_false_iff _).mpr hh, (hasNsecFragB_eq_false_iff _).mpr hn,
    rfl, rfl, rfl, rfl, rfl⟩

/-! ## URL normalization proofs (C4): splitting and character classes -/

theorem splitAtFirst_not_mem {sep : Char} :
    ∀ {l : JStr}, (∀ c ∈ l, c ≠ sep) → splitAtFirst sep l = (l, none) := by
  intro l
  induction l with
  | nil => intro _; rfl
  | cons c t ih =>
    intro h
    have hc : c ≠ sep := h c (List.mem_cons_self _ _)
    simp only [splitAtFirst, if_neg hc]
    rw [ih (fun x hx => h x (List.mem_cons_of_mem _ hx))]

theorem splitAtFirst_append {sep : Char} :
    ∀ {a : JStr} (b : JStr), (∀ c ∈ a, c ≠ sep) →
      splitAtFirst sep (a ++ sep :: b) = (a, some b) := by
  intro a
  induction a with
  | nil => intro b _; simp [splitAtFirst]
  | cons c t ih =>
    intro b h
    have hc : c ≠ sep := h c (List.mem_cons_self _ _)
    simp only [List.cons_append, splitAtFirst, if_neg hc]
    simp only [List.append_eq]
    rw [ih b (fun x hx => h x (List.mem_cons_of_mem _ hx))]

theorem splitAll_not_mem {sep : Char} :
    ∀ {l : JStr}, (∀ c ∈ l, c ≠ sep) → splitAll sep l = [l] := by
  intro l
  induction l with
  | nil => intro _; rfl
  | cons c t ih =>
    intro h
    have hc : c ≠ sep := h c (List.mem_cons_self _ _)
    simp only [splitAll, if_neg hc]
    rw [ih (fun x hx => h x (List.mem_cons_of_mem _ hx))]

theorem splitAll_append {sep : Char} :
    ∀ {a : JStr} (b : JStr), (∀ c ∈ a, c ≠ sep) →
      splitAll sep (a ++ sep :: b) = a :: splitAll sep b := by
  intro a
  induction a with
  | nil => intro b _; simp [splitAll]
  | cons c t ih =>
    intro b h
    have hc : c ≠ sep := h c (List.mem_cons_self _ _)
    simp only [List.cons_append, splitAll, if_neg hc]
    simp only [List.append_eq]
    rw [ih b (fun x hx => h x (List.mem_cons_of_mem _ hx))]

theorem char_toNat_of_upper {c : Char} (h : isUpperCh c = true) :
    65 ≤ c.toNat ∧ c.toNat ≤ 90 := by
  simp only [isUpperCh, Bool.and_eq_true, decide_eq_true_eq] at h
  exact ⟨h.1, h.2⟩

theorem char_ofNat_toNat {n : Nat} (h : n < 55296) : (Char.ofNat n).toNat = n := by
  unfold Char.ofNat
  rw [dif_pos (Or.inl h)]
  rfl

theorem lowerCh_toNat_of_upper {c : Char} (h : isUpperCh c = true) :
    (lowerCh c).toNat = c.toNat + 32 := by
  obtain ⟨h1, h2⟩ := char_toNat_of_upper h
  rw [lowerCh, if_pos h]
  exact char_ofNat_toNat (by omega)

theorem isLower_lowerCh_of_upper {c : Char} (h : isUpperCh c = true) :
    isLowerCh (lowerCh c) = true := by
  obtain ⟨h1, h2⟩ := char_toNat_of_upper h
  have ht := lowerCh_toNat_of_upper h
  simp only [isLowerCh, Bool.and_eq_true, decide_eq_true_eq]
  constructor
  · exact (show 97 ≤ (lowerCh c).toNat by omega)
  · exact (show (lowerCh c).toNat ≤ 122 by omega)

theorem isUpper_false_of_lower {c : Char} (h : isLowerCh c = true) : isUpperCh c = false := by
  simp only [isLowerCh, Bool.and_eq_true, decide_eq_true_eq] at h
  have h1 : 97 ≤ c.toNat := h.1
  by_contra hu
  rw [Bool.not_eq_false] at hu
  obtain ⟨-, h2⟩ := char_toNat_of_upper hu
  omega

theorem lowerCh_of_not_upper {c : Char} (h : isUpperCh c = false) : lowerCh c = c := by
  rw [lowerCh, if_neg (by simp [h])]

theorem lowerCh_idem (c : Char) : lowerCh (lowerCh c) = lowerCh c := by
  by_cases h : isUpperCh c = true
  · exact lowerCh_of_not_upper (isUpper_false_of_lower (isLower_lowerCh_of_upper h))
  · have hcc : lowerCh c = c := lowerCh_of_not_upper (by simpa using h)
    rw [hcc, hcc]

theorem isHostCh_lowerCh {c : Char} (h : isHostCh c = true) : isHostCh (lowerCh c) = true := by
  by_cases hu : isUpperCh c = true
  · have := isLower_lowerCh_of_upper hu
    simp [isHostCh, isAlnum36, isAlphaCh, this]
  · rw [lowerCh_of_not_upper (by simpa using hu)]
    exact h

theorem wsCh_excludes {c : Char} (h : wsCh c = true) :
    isHostCh c = false ∧ isPathCh c = false ∧ isQueryCh c = false ∧ isDigitCh c = false := by
  simp only [wsCh, Bool.or_eq_true, decide_eq_true_eq] at h
  rcases h with ((((rfl | rfl) | rfl) | rfl) | rfl) | rfl <;>
    exact ⟨by decide, by decide, by decide, by decide⟩

theorem isHostCh_ne {c : Char} (h : isHostCh c = true) :
    c ≠ '#' ∧ c ≠ '?' ∧ c ≠ '/' ∧ c ≠ ':' ∧ c ≠ '@' ∧ wsCh c = false := by
  refine ⟨?_, ?_, ?_, ?_, ?_, ?_⟩
  · intro hc; subst hc; exact absurd h (by decide)
  · intro hc; subst hc; exact absurd h (by decide)
  · intro hc; subst hc; exact absurd h (by decide)
  · intro hc; subst hc; exact absurd h (by decide)
  · intro hc; subst hc; exact absurd h (by decide)
  · by_contra hw
    rw [Bool.not_eq_false] at hw
    rw [(wsCh_excludes hw).1] at h
    cases h

theorem isDigitCh_ne {c : Char} (h : isDigitCh c = true) :
    c ≠ '#' ∧ c ≠ '?' ∧ c ≠ '/' ∧ c ≠ '@' ∧ wsCh c = false := by
  refine ⟨?_, ?_, ?_, ?_, ?_⟩
  · intro hc; subst hc; exact absurd h (by decide)
  · intro hc; subst hc; exact absurd h (by decide)
  · intro hc; subst hc; exact absurd h (by decide)
  · intro hc; subst hc; exact absurd h (by decide)
  · by_contra hw
    rw [Bool.not_eq_false] at hw
    rw [(wsCh_excludes hw).2.2.2] at h
    cases h

theorem isPathCh_ne {c : Char} (h : isPathCh c = true) :
    c ≠ '#' ∧ c ≠ '?' ∧ wsCh c = false := by
  refine ⟨?_, ?_, ?_⟩
  · intro hc; subst hc; exact absurd h (by decide)
  · intro hc; subst hc; exact absurd h (by decide)
  · by_contra hw
    rw [Bool.not_eq_false] at hw
    rw [(wsCh_excludes hw).2.1] at h
    cases h

theorem isQueryCh_ne {c : Char} (h : isQueryCh c = true) :
    c ≠ '#' ∧ c ≠ '/' ∧ c ≠ '&' ∧ c ≠ '=' ∧ wsCh c = false := by
  refine ⟨?_, ?_, ?_, ?_, ?_⟩
  · intro hc; subst hc; exact absurd h (by decide)
  · intro hc; subst hc; exact absurd h (by decide)
  · intro hc; subst hc; exact absurd h (by decide)
  · intro hc; subst hc; exact absurd h (by decide)
  · by_contra hw
    rw [Bool.not_eq_false] at hw
    rw [(wsCh_excludes hw).2.2.1] at h
    cases h

/-! ## URL normalization proofs (C4): path, port and query canonicity -/

theorem collapseSlashes_head : ∀ (c : Char) (t : JStr), ∃ t', collapseSlashes (c :: t) = c :: t' := by
  intro c t
  induction t generalizing c with
  | nil => exact ⟨[], rfl⟩
  | cons b t2 ih =>
    by_cases h : c = '/' ∧ b = '/'
    · obtain ⟨rfl, rfl⟩ := h
      obtain ⟨t', ht'⟩ := ih '/'
      exact ⟨t', by rw [collapseSlashes, if_pos (by simp)]; exact ht'⟩
    · obtain ⟨t', ht'⟩ := ih b
      refine ⟨collapseSlashes (b :: t2), ?_⟩
      rw [collapseSlashes, if_neg (by simpa using h)]

theorem collapseSlashes_mem : ∀ {x : Char} {l : JStr}, x ∈ collapseSlashes l → x ∈ l := by
  intro x l
  induction l with
  | nil => intro h; exact h
  | cons c t ih =>
    intro h
    cases t with
    | nil => exact h
    | cons b t2 =>
      rw [collapseSlashes] at h
      split at h
      · exact List.mem_cons_of_mem _ (ih h)
      · rcases List.mem_cons.mp h with rfl | h
        · exact List.mem_cons_self _ _
        · exact List.mem_cons_of_mem _ (ih h)

theorem collapseSlashes_chain : ∀ (l : JStr),
    List.Chain' (fun a b => ¬(a = '/' ∧ b = '/')) (collapseSlashes l) := by
  intro l
  induction l with
  | nil => simp [collapseSlashes]
  | cons c t ih =>
    cases t with
    | nil => simp [collapseSlashes]
    | cons b t2 =>
      rw [collapseSlashes]
      split
      · exact ih
      · rename_i hne
        obtain ⟨t', ht'⟩ := collapseSlashes_head b t2
        rw [ht']
        rw [ht'] at ih
        exact List.Chain'.cons (by simpa using hne) ih

theorem collapseSlashes_of_chain : ∀ {l : JStr},
    List.Chain' (fun a b => ¬(a = '/' ∧ b = '/')) l → collapseSlashes l = l := by
  intro l
  induction l with
  | nil => intro _; rfl
  | cons c t ih =>
    intro h
    cases t with
    | nil => rfl
    | cons b t2 =>
      rw [collapseSlashes]
      rcases List.chain'_cons.mp h with ⟨hcb, ht⟩
      rw [if_neg (by simpa using hcb)]
      rw [ih ht]

theorem chain_dropLast {l : JStr} (h : List.Chain' (fun a b => ¬(a = '/' ∧ b = '/')) l) :
    List.Chain' (fun a b => ¬(a = '/' ∧ b = '/')) l.dropLast :=
  List.Chain'.prefix h ( List.dropLast_prefix l)

theorem fixPath_id {p : JStr} (hh : ∃ t, p = '/' :: t)
    (hnd : List.Chain' (fun a b => ¬(a = '/' ∧ b = '/')) p)
    (hl : p = ['/'] ∨ p.getLast? ≠ some '/') : fixPath p = p := by
  obtain ⟨t, rfl⟩ := hh
  rw [fixPath, collapseSlashes_of_chain hnd]
  rcases hl with he | hne
  · rw [he]
    rfl
  · rw [if_neg hne]
    simp

theorem fixPath_inv (p : JStr) (hh : ∃ t, p = '/' :: t) (hchars : p.all isPathCh = true) :
    (∃ t, fixPath p = '/' :: t)
    ∧ (fixPath p).all isPathCh = true
    ∧ List.Chain' (fun a b => ¬(a = '/' ∧ b = '/')) (fixPath p)
    ∧ (fixPath p = ['/'] ∨ (fixPath p).getLast? ≠ some '/') := by
  obtain ⟨t, rfl⟩ := hh
  obtain ⟨t', ht'⟩ := collapseSlashes_head '/' t
  have hcc := collapseSlashes_chain ('/' :: t)
  have hmem : ∀ x ∈ collapseSlashes ('/' :: t), isPathCh x = true := by
    intro x hx
    exact List.all_eq_true.mp hchars x (collapseSlashes_mem hx)
  rw [fixPath, ht']
  rw [ht'] at hcc hmem
  by_cases hlast : ('/' :: t').getLast? = some '/'
  · rw [if_pos hlast]
    obtain ⟨init, hinit⟩ := List.getLast?_eq_some_iff.mp hlast
    rw [hinit, List.dropLast_concat]
    cases init with
    | nil =>
      rw [if_pos rfl]
      exact ⟨⟨[], rfl⟩, by decide, by simp, Or.inl rfl⟩
    | cons d d2 =>
      rw [if_neg (by simp)]
      have hd : d = '/' := by
        have : ('/' : Char) :: t' = d :: (d2 ++ ['/']) := by simpa using hinit
        exact (List.cons.injEq _ _ _ _ ▸ this).1.symm
      subst hd
      refine ⟨⟨d2, rfl⟩, ?_, ?_, ?_⟩
      · refine List.all_eq_true.mpr ?_
        intro x hx
        exact hmem x (hinit ▸ List.mem_append_left _ hx)
      · exact List.Chain'.prefix (hinit ▸ hcc) ⟨['/'], rfl⟩
      · by_cases hone : ('/' : Char) :: d2 = ['/']
        · exact Or.inl hone
        · refine Or.inr ?_
          intro hlast2
          obtain ⟨init2, hinit2⟩ := List.getLast?_eq_some_iff.mp hlast2
          have hsuf : (['/', '/'] : JStr) <:+ ('/' :: t') := by
            refine ⟨init2, ?_⟩
            rw [hinit, hinit2]
            simp
          have := (hcc.suffix hsuf)
          rw [List.chain'_cons] at this
          exact this.1 ⟨rfl, rfl⟩
  · rw [if_neg hlast, if_neg (by simp)]
    exact ⟨⟨t', rfl⟩, List.all_eq_true.mpr hmem, hcc, Or.inr hlast⟩

theorem lexLtQ_asymm : ∀ a b : JStr, lexLtQ a b = true → lexLtQ b a = false := by
  intro a
  induction a with
  | nil =>
    intro b h
    cases b with
    | nil => cases h
    | cons c cs => rfl
  | cons x xs ih =>
    intro b h
    cases b with
    | nil => cases h
    | cons y ys =>
      simp only [lexLtQ, Bool.or_eq_true, Bool.and_eq_true, decide_eq_true_eq] at h
      rcases h with h | ⟨heq, hrec⟩
      · simp [lexLtQ, lt_asymm h, ne_of_gt h]
      · subst heq
        simp [lexLtQ, lt_irrefl, ih ys hrec]

theorem insertPair_head (x : JStr × JStr) (l : List (JStr × JStr)) :
    insertPair x l = x :: l
    ∨ ∃ y t, l = y :: t ∧ insertPair x l = y :: insertPair x t ∧ lexLtQ y.1 x.1 = true := by
  cases l with
  | nil => exact Or.inl rfl
  | cons y t =>
    by_cases h : lexLtQ y.1 x.1 = true
    · exact Or.inr ⟨y, t, rfl, by rw [insertPair, if_pos h], h⟩
    · exact Or.inl (by rw [insertPair, if_neg h])

theorem insertPair_chain (x : JStr × JStr) :
    ∀ (l : List (JStr × JStr)), List.Chain' qle l → List.Chain' qle (insertPair x l) := by
  intro l
  induction l with
  | nil => intro _; simp [insertPair]
  | cons y t ih =>
    intro h
    rcases List.chain'_cons'.mp h with ⟨hhead, ht⟩
    by_cases hc : lexLtQ y.1 x.1 = true
    · rw [insertPair, if_pos hc]
      refine List.chain'_cons'.mpr ⟨?_, ih ht⟩
      intro z hz
      rcases insertPair_head x t with he | ⟨w, t2, ht2, he, hw⟩
      · rw [he] at hz
        simp only [List.head?_cons, Option.mem_def, Option.some.injEq] at hz
        subst hz
        exact lexLtQ_asymm _ _ hc
      · rw [he] at hz
        simp only [List.head?_cons, Option.mem_def, Option.some.injEq] at hz
        subst hz
        exact hhead w (by rw [ht2]; simp)
    · rw [insertPair, if_neg hc]
      refine List.chain'_cons.mpr ⟨?_, h⟩
      simpa [qle] using hc

theorem sortPairs_chain : ∀ (l : List (JStr × JStr)), List.Chain' qle (sortPairs l) := by
  intro l
  induction l with
  | nil => simp [sortPairs]
  | cons x t ih => exact insertPair_chain x _ ih

theorem sortPairs_mem {x : JStr × JStr} :
    ∀ {l : List (JStr × JStr)}, x ∈ sortPairs l → x ∈ l := by
  intro l
  induction l with
  | nil => intro h; exact h
  | cons y t ih =>
    intro h
    rw [sortPairs] at h
    have hmem : ∀ (z : JStr × JStr) (m : List (JStr × JStr)),
        z ∈ insertPair y m → z = y ∨ z ∈ m := by
      intro z m
      induction m with
      | nil => intro hz; simpa [insertPair] using hz
      | cons w m2 ihm =>
        intro hz
        rw [insertPair] at hz
        split at hz
        · rcases List.mem_cons.mp hz with rfl | hz
          · exact Or.inr (List.mem_cons_self _ _)
          · rcases ihm hz with rfl | hz
            · exact Or.inl rfl
            · exact Or.inr (List.mem_cons_of_mem _ hz)
        · rcases List.mem_cons.mp hz with rfl | hz
          · exact Or.inl rfl
          · exact Or.inr hz
    rcases hmem x (sortPairs t) h with rfl | h
    · exact List.mem_cons_self _ _
    · exact List.mem_cons_of_mem _ (ih h)

theorem sortPairs_sorted_id : ∀ {l : List (JStr × JStr)}, List.Chain' qle l → sortPairs l = l := by
  intro l
  induction l with
  | nil => intro _; rfl
  | cons x t ih =>
    intro h
    rcases List.chain'_cons'.mp h with ⟨hhead, ht⟩
    rw [sortPairs, ih ht]
    cases t with
    | nil => rfl
    | cons y t2 =>
      have hq : lexLtQ y.1 x.1 = false := hhead y (by simp)
      rw [insertPair, if_neg (by simp [hq])]

theorem dropWhile_head_not {p : Char → Bool} :
    ∀ {l : JStr} {c : Char} {r : JStr}, l.dropWhile p = c :: r → p c = false := by
  intro l
  induction l with
  | nil => intro c r h; cases h
  | cons a t ih =>
    intro c r h
    rw [List.dropWhile_cons] at h
    split at h
    · exact ih h
    · rename_i hp
      injection h with h1 h2
      subst h1
      simpa using hp

theorem canonPortDigits_idem (ds : JStr) :
    canonPortDigits (canonPortDigits ds) = canonPortDigits ds := by
  cases hd : ds.dropWhile (fun c => c = '0') with
  | nil =>
    have h1 : canonPortDigits ds = ['0'] := by rw [canonPortDigits, hd]
    rw [h1]
    decide
  | cons c r =>
    have hc := dropWhile_head_not hd
    have h1 : canonPortDigits ds = c :: r := by rw [canonPortDigits, hd]
    rw [h1, canonPortDigits, List.dropWhile_cons]
    simp [hc]

theorem canonPortDigits_digits {ds : JStr} (h : ds.all isDigitCh = true) :
    (canonPortDigits ds).all isDigitCh = true := by
  cases hd : ds.dropWhile (fun c => c = '0') with
  | nil =>
    have h1 : canonPortDigits ds = ['0'] := by rw [canonPortDigits, hd]
    rw [h1]
    decide
  | cons c r =>
    have h1 : canonPortDigits ds = c :: r := by rw [canonPortDigits, hd]
    rw [h1]
    refine List.all_eq_true.mpr ?_
    intro x hx
    refine List.all_eq_true.mp h x ?_
    have hsub : (ds.dropWhile (fun c => c = '0')).Sublist ds :=
      List.dropWhile_sublist (fun c : Char => decide (c = '0'))
    rw [hd] at hsub
    exact hsub.mem hx

theorem defaultPort_mapScheme (s : UrlScheme) :
    defaultPortChars (mapScheme s) = defaultPortChars s := by
  cases s <;> rfl

/-! ## URL normalization proofs (C4): parse-stage inversion -/

theorem contains_eq_false {a : Char} {l : JStr} (h : ∀ c ∈ l, c ≠ a) : l.contains a = false := by
  induction l with
  | nil => rfl
  | cons c t ih =>
    have hc : c ≠ a := h c (List.mem_cons_self _ _)
    simp only [List.contains_cons]
    rw [ih (fun x hx => h x (List.mem_cons_of_mem _ hx))]
    simp [Ne.symm hc]

theorem splitAtFirst_fst_subset (sep : Char) :
    ∀ (l : JStr), (∀ c ∈ (splitAtFirst sep l).1, c ∈ l ∧ c ≠ sep)
      ∧ (∀ r, (splitAtFirst sep l).2 = some r → ∀ c ∈ r, c ∈ l) := by
  intro l
  induction l with
  | nil => exact ⟨by simp [splitAtFirst], by simp [splitAtFirst]⟩
  | cons x t ih =>
    by_cases hx : x = sep
    · subst hx
      simp only [splitAtFirst, if_pos rfl]
      exact ⟨by simp, by intro r hr c hc; cases hr; exact List.mem_cons_of_mem _ hc⟩
    · simp only [splitAtFirst, if_neg hx]
      constructor
      · intro c hc
        rcases List.mem_cons.mp hc with rfl | hc
        · exact ⟨List.mem_cons_self _ _, hx⟩
        · exact ⟨List.mem_cons_of_mem _ ((ih.1 c hc).1), (ih.1 c hc).2⟩
      · intro r hr c hc
        exact List.mem_cons_of_mem _ (ih.2 r hr c hc)

theorem splitAll_pieces (sep : Char) :
    ∀ (l : JStr) (x : JStr), x ∈ splitAll sep l → ∀ c ∈ x, c ∈ l ∧ c ≠ sep := by
  intro l
  induction l with
  | nil =>
    intro x hx c hc
    simp only [splitAll, List.mem_singleton] at hx
    subst hx
    simp at hc
  | cons a t ih =>
    intro x hx c hc
    by_cases ha : a = sep
    · subst ha
      simp only [splitAll, if_pos rfl] at hx
      rcases List.mem_cons.mp hx with rfl | hx
      · simp at hc
      · obtain ⟨h1, h2⟩ := ih x hx c hc
        exact ⟨List.mem_cons_of_mem _ h1, h2⟩
    · simp only [splitAll, if_neg ha] at hx
      cases hs : splitAll sep t with
      | nil =>
        rw [hs] at hx
        simp only [List.mem_singleton] at hx
        subst hx
        rcases List.mem_cons.mp hc with rfl | hc
        · exact ⟨List.mem_cons_self _ _, ha⟩
        · simp at hc
      | cons s rest =>
        rw [hs] at hx
        rcases List.mem_cons.mp hx with rfl | hx
        · rcases List.mem_cons.mp hc with rfl | hc
          · exact ⟨List.mem_cons_self _ _, ha⟩
          · obtain ⟨h1, h2⟩ := ih s (hs ▸ List.mem_cons_self _ _) c hc
            exact ⟨List.mem_cons_of_mem _ h1, h2⟩
        · obtain ⟨h1, h2⟩ := ih x (hs ▸ List.mem_cons_of_mem _ hx) c hc
          exact ⟨List.mem_cons_of_mem _ h1, h2⟩

theorem parsePort_inv {sch : UrlScheme} {po : Option JStr} {port : Option JStr}
    (h : parsePort sch po = some port) :
    ∀ p, port = some p →
      p.all isDigitCh = true ∧ canonPortDigits p = p ∧ p ≠ defaultPortChars sch := by
  intro p hp
  subst hp
  cases po with
  | none => simp [parsePort] at h
  | some ds =>
    rw [parsePort] at h
    split at h
    · injection h with h1; cases h1
    · split at h
      · rename_i hdig
        simp only [Option.some.injEq] at h
        split at h
        · cases h
        · rename_i hdef
          injection h with h1
          subst h1
          exact ⟨canonPortDigits_digits hdig, canonPortDigits_idem _, hdef⟩
      · cases h

theorem parseHostPort_inv {sch : UrlScheme} {auth : JStr} {hp : JStr × Option JStr}
    (h : parseHostPort sch auth = some hp) :
    hp.1 ≠ [] ∧ hp.1.all isHostCh = true ∧ hp.1.map lowerCh = hp.1
    ∧ ∀ p, hp.2 = some p →
        p.all isDigitCh = true ∧ canonPortDigits p = p ∧ p ≠ defaultPortChars sch := by
  rw [parseHostPort] at h
  split at h
  · cases h
  split at h
  · cases h
  rename_i hcond
  rw [Bool.or_eq_true, not_or] at hcond
  obtain ⟨hne, hall⟩ := hcond
  have hall' : (splitAtFirst ':' auth).1.all isHostCh = true := by
    by_contra hx
    rw [Bool.not_eq_true] at hx
    exact hall (by simp [hx])
  have hne' : (splitAtFirst ':' auth).1 ≠ [] := by simpa using hne
  cases hpp : parsePort sch (splitAtFirst ':' auth).2 with
  | none => rw [hpp] at h; cases h
  | some prt =>
    rw [hpp] at h
    injection h with h1
    subst h1
    refine ⟨?_, ?_, ?_, parsePort_inv hpp⟩
    · simpa using hne'
    · refine List.all_eq_true.mpr ?_
      intro x hx
      obtain ⟨y, hy, rfl⟩ := List.mem_map.mp hx
      exact isHostCh_lowerCh (List.all_eq_true.mp hall' y hy)
    · rw [List.map_map]
      exact List.map_congr_left (fun x _ => lowerCh_idem x)

theorem pairOfSegment_chars {seg : JStr}
    (h : ∀ c ∈ seg, (isQueryCh c || c = '&' || c = '=') = true ∧ c ≠ '&') :
    (pairOfSegment seg).1.all isQueryCh = true
    ∧ (pairOfSegment seg).2.all (fun c => isQueryCh c || c = '=') = true := by
  have hk := (splitAtFirst_fst_subset '=' seg).1
  have hv := (splitAtFirst_fst_subset '=' seg).2
  cases hsp : splitAtFirst '=' seg with
  | mk k vo =>
    rw [hsp] at hk hv
    have hkq : k.all isQueryCh = true := by
      refine List.all_eq_true.mpr ?_
      intro c hc
      obtain ⟨hcin, hcneq⟩ := hk c hc
      obtain ⟨hq, hamp⟩ := h c hcin
      simp only [Bool.or_eq_true, decide_eq_true_eq] at hq
      rcases hq with (hq | he) | he
      · exact hq
      · exact absurd he hamp
      · exact absurd he hcneq
    cases vo with
    | none =>
      simp only [pairOfSegment, hsp]
      exact ⟨hkq, by simp⟩
    | some v =>
      simp only [pairOfSegment, hsp]
      refine ⟨hkq, ?_⟩
      refine List.all_eq_true.mpr ?_
      intro c hc
      have hcin : c ∈ seg := hv v rfl c hc
      obtain ⟨hq, hamp⟩ := h c hcin
      simp only [Bool.or_eq_true, decide_eq_true_eq] at hq ⊢
      rcases hq with (hq | he) | he
      · exact Or.inl hq
      · exact absurd he hamp
      · exact Or.inr he

theorem parseQuery_inv {qo : Option JStr} {query : List (JStr × JStr)}
    (h : parseQuery qo = some query) :
    ∀ kv ∈ query, kv.1.all isQueryCh = true
      ∧ kv.2.all (fun c => isQueryCh c || c = '=') = true := by
  cases qo with
  | none =>
    simp only [parseQuery, Option.some.injEq] at h
    subst h
    intro kv hkv
    cases hkv
  | some qs =>
    rw [parseQuery] at h
    split at h
    · rename_i hall
      injection h with h1
      subst h1
      intro kv hkv
      rw [parseParams] at hkv
      obtain ⟨seg, hseg, hkveq⟩ := List.mem_map.mp hkv
      have hsegmem : seg ∈ splitAll '&' qs := (List.mem_filter.mp hseg).1
      subst hkveq
      refine pairOfSegment_chars ?_
      intro c hc
      obtain ⟨hcl, hcne⟩ := splitAll_pieces '&' qs seg hsegmem c hc
      exact ⟨List.all_eq_true.mp hall c hcl, hcne⟩
    · cases h

theorem parsePath_head (o : Option JStr) : ∃ t, parsePath o = '/' :: t := by
  cases o with
  | none => exact ⟨[], rfl⟩
  | some p => exact ⟨p, rfl⟩

theorem parseURL_inv {s : JStr} {u : URLRec} (h : parseURL s = some u) :
    (u.host ≠ [] ∧ u.host.all isHostCh = true ∧ u.host.map lowerCh = u.host)
    ∧ (∀ p, u.port = some p → p.all isDigitCh = true ∧ canonPortDigits p = p
        ∧ p ≠ defaultPortChars u.scheme)
    ∧ (∃ t, u.path = '/' :: t) ∧ u.path.all isPathCh = true
    ∧ ∀ kv ∈ u.query, kv.1.all isQueryCh = true
        ∧ kv.2.all (fun c => isQueryCh c || c = '=') = true := by
  rw [parseURL] at h
  cases hsp : (splitAtFirst ':' s).2 with
  | none => rw [hsp] at h; exact Option.noConfusion h
  | some rest =>
    rw [hsp] at h
    cases rest with
    | nil => simp [parseRest] at h
    | cons a t =>
      cases t with
      | nil => simp [parseRest] at h
      | cons b r2 =>
        simp only [parseRest] at h
        split at h
        · rename_i hab
          cases hsch : schemeOfChars (splitAtFirst ':' s).1 with
          | none => rw [hsch] at h; exact Option.noConfusion h
          | some sch =>
            rw [hsch] at h
            replace h : parseBody sch r2 = some u := h
            rw [parseBody] at h
            cases hhp : parseHostPort sch
                (splitAtFirst '/' (splitAtFirst '?' (splitAtFirst '#' r2).1).1).1 with
            | none => rw [hhp] at h; exact Option.noConfusion h
            | some hostPort =>
              rw [hhp] at h
              simp only [parseWithHost] at h
              split at h
              · cases h
              · rename_i hpath
                cases hq : parseQuery (splitAtFirst '?' (splitAtFirst '#' r2).1).2 with
                | none => rw [hq] at h; exact Option.noConfusion h
                | some query =>
                  rw [hq] at h
                  replace h : some (⟨sch, hostPort.1, hostPort.2,
                      parsePath (splitAtFirst '/'
                        (splitAtFirst '?' (splitAtFirst '#' r2).1).1).2, query⟩ : URLRec)
                      = some u := h
                  injection h with h1
                  obtain ⟨hh1, hh2, hh3, hport⟩ := parseHostPort_inv hhp
                  have hpath' : (parsePath
                      (splitAtFirst '/' (splitAtFirst '?' (splitAtFirst '#' r2).1).1).2).all
                      isPathCh = true := by
                    by_contra hx
                    rw [Bool.not_eq_true] at hx
                    exact hpath (by simp [hx])
                  subst h1
                  exact ⟨⟨hh1, hh2, hh3⟩, hport, parsePath_head _, hpath', parseQuery_inv hq⟩
        · cases h

theorem mapScheme_two (s : UrlScheme) : mapScheme s = UrlScheme.ws ∨ mapScheme s = UrlScheme.wss := by
  cases s
  · exact Or.inl rfl
  · exact Or.inr rfl
  · exact Or.inl rfl
  · exact Or.inr rfl

theorem mapScheme_id_of_two {s : UrlScheme} (h : s = UrlScheme.ws ∨ s = UrlScheme.wss) :
    mapScheme s = s := by
  rcases h with rfl | rfl <;> rfl

theorem stripDefaultPort_inv {sch : UrlScheme} {po : Option JStr} {p : JStr}
    (h : stripDefaultPort sch po = some p) : po = some p := by
  cases po with
  | none => cases h
  | some q =>
    simp only [stripDefaultPort] at h
    split at h
    · cases h
    · split at h
      · cases h
      · exact h

/-- The record produced by `fixURL` on any successfully parsed URL satisfies
all canonical-form invariants. -/
theorem parse_fix_inv {s : JStr} {u : URLRec} (h : parseURL s = some u) :
    URLInv (fixURL u) := by
  obtain ⟨⟨hh1, hh2, hh3⟩, hport, hphead, hpchars, hquery⟩ := parseURL_inv h
  obtain ⟨hf1, hf2, hf3, hf4⟩ := fixPath_inv u.path hphead hpchars
  refine ⟨mapScheme_two u.scheme, hh1, hh2, hh3, ?_, hf1, hf2, hf3, hf4, ?_, ?_⟩
  · intro p hp
    have hup : u.port = some p := stripDefaultPort_inv hp
    obtain ⟨hd, hc, hne⟩ := hport p hup
    refine ⟨hd, hc, ?_⟩
    show p ≠ defaultPortChars (mapScheme u.scheme)
    rw [defaultPort_mapScheme]
    exact hne
  · intro kv hkv
    exact hquery kv (sortPairs_mem hkv)
  · exact sortPairs_chain _

theorem stripDefaultPort_id {v : URLRec} (hinv : URLInv v) :
    stripDefaultPort (mapScheme v.scheme) v.port = v.port := by
  cases hv : v.port with
  | none => rw [mapScheme_id_of_two hinv.scheme2]; rfl
  | some p =>
    obtain ⟨hd, hc, hne⟩ := hinv.portInv p hv
    rw [mapScheme_id_of_two hinv.scheme2]
    simp only [stripDefaultPort]
    rcases hinv.scheme2 with h2 | h2 <;> rw [h2] <;> rw [h2] at hne
    · rw [if_neg (fun hx => hne hx.1), if_neg (fun hx => UrlScheme.noConfusion hx.2)]
    · rw [if_neg (fun hx => UrlScheme.noConfusion hx.2), if_neg (fun hx => hne hx.1)]

/-- `fixURL` is the identity on records already in canonical form. -/
theorem fixURL_id {v : URLRec} (hinv : URLInv v) : fixURL v = v := by
  rw [fixURL, stripDefaultPort_id hinv,
    fixPath_id hinv.pathHead hinv.pathNoDouble hinv.pathLast,
    sortPairs_sorted_id hinv.querySorted, mapScheme_id_of_two hinv.scheme2]

theorem dropWhile_all_false {p : Char → Bool} :
    ∀ {l : JStr}, (∀ c ∈ l, p c = false) → l.dropWhile p = l := by
  intro l
  induction l with
  | nil => intro _; rfl
  | cons c t ih =>
    intro h
    rw [List.dropWhile_cons, if_neg (by simp [h c (List.mem_cons_self _ _)])]

theorem startsWithStr_self_append : ∀ (p b : JStr), startsWithStr p (p ++ b) = true := by
  intro p
  induction p with
  | nil => intro b; rfl
  | cons c t ih =>
    intro b
    simp only [List.cons_append, startsWithStr]
    simp [ih b]

theorem hasSchemeSep_mid (a b : JStr) : hasSchemeSep (a ++ (strL "://" ++ b)) = true := by
  rw [hasSchemeSep, isSubstrB]
  refine List.any_eq_true.mpr ⟨strL "://" ++ b, ?_, startsWithStr_self_append _ _⟩
  rw [List.mem_tails]
  exact ⟨a, rfl⟩

theorem schemeChars_no_colon (s : UrlScheme) : ∀ c ∈ schemeChars s, c ≠ ':' := by
  cases s <;> decide

theorem schemeOfChars_schemeChars (s : UrlScheme) :
    schemeOfChars (schemeChars s) = some s := by
  cases s <;> rfl

theorem joinParams_chars : ∀ {q : List (JStr × JStr)},
    (∀ kv ∈ q, kv.1.all isQueryCh = true
      ∧ kv.2.all (fun c => isQueryCh c || c = '=') = true) →
    ∀ c ∈ joinParams q, (isQueryCh c || c = '&' || c = '=') = true := by
  intro q
  induction q with
  | nil => intro _ c hc; cases hc
  | cons kv rest ih =>
    intro h c hc
    obtain ⟨hk, hv⟩ := h kv (List.mem_cons_self _ _)
    obtain ⟨k, v⟩ := kv
    cases rest with
    | nil =>
      simp only [joinParams] at hc
      simp only [Bool.or_eq_true, decide_eq_true_eq]
      rcases List.mem_append.mp hc with hck | hcv
      · exact Or.inl (Or.inl (List.all_eq_true.mp hk c hck))
      · rcases List.mem_cons.mp hcv with rfl | hcv
        · exact Or.inr rfl
        · have := List.all_eq_true.mp hv c hcv
          simp only [Bool.or_eq_true, decide_eq_true_eq] at this
          rcases this with hq | he
          · exact Or.inl (Or.inl hq)
          · exact Or.inr he
    | cons kv2 rest2 =>
      simp only [joinParams] at hc
      simp only [Bool.or_eq_true, decide_eq_true_eq]
      rcases List.mem_append.mp hc with hckv | hcr
      · rcases List.mem_append.mp hckv with hck | hcv
        · exact Or.inl (Or.inl (List.all_eq_true.mp hk c hck))
        · rcases List.mem_cons.mp hcv with rfl | hcv
          · exact Or.inr rfl
          · have := List.all_eq_true.mp hv c hcv
            simp only [Bool.or_eq_true, decide_eq_true_eq] at this
            rcases this with hq | he
            · exact Or.inl (Or.inl hq)
            · exact Or.inr he
      · rcases List.mem_cons.mp hcr with rfl | hcr
        · exact Or.inl (Or.inr rfl)
        · have := ih (fun z hz => h z (List.mem_cons_of_mem _ hz)) c hcr
          simpa using this

theorem parseHostPort_build {sch : UrlScheme} {host : JStr} {port : Option JStr}
    (hne : host ≠ []) (hchars : host.all isHostCh = true) (hlower : host.map lowerCh = host)
    (hport : ∀ p, port = some p → p.all isDigitCh = true ∧ canonPortDigits p = p
      ∧ p ≠ defaultPortChars sch) :
    parseHostPort sch (host ++ portPart port) = some (host, port) := by
  have hhost : ∀ c ∈ host, isHostCh c = true := List.all_eq_true.mp hchars
  cases port with
  | none =>
    rw [portPart, List.append_nil]
    have hat : ¬(host.contains '@' = true) := by
      rw [contains_eq_false (fun c hc => (isHostCh_ne (hhost c hc)).2.2.2.2.1)]
      exact Bool.false_ne_true
    have hsp : splitAtFirst ':' host = (host, none) :=
      splitAtFirst_not_mem (fun c hc => (isHostCh_ne (hhost c hc)).2.2.2.1)
    have hsp1 : (splitAtFirst ':' host).1 = host := by rw [hsp]
    have hsp2 : (splitAtFirst ':' host).2 = none := by rw [hsp]
    rw [parseHostPort, if_neg hat, hsp1, if_neg (by simp [hne, hchars]), hsp2]
    show some (List.map lowerCh host, none) = some (host, none)
    rw [hlower]
  | some p =>
    obtain ⟨hd, hcp, hnedef⟩ := hport p rfl
    have hdig : ∀ c ∈ p, isDigitCh c = true := List.all_eq_true.mp hd
    show parseHostPort sch (host ++ ':' :: p) = some (host, some p)
    have hat : ¬((host ++ ':' :: p).contains '@' = true) := by
      rw [contains_eq_false ?hmem]
      · exact Bool.false_ne_true
      case hmem =>
        intro c hc
        rcases List.mem_append.mp hc with hch | hcp2
        · exact (isHostCh_ne (hhost c hch)).2.2.2.2.1
        · rcases List.mem_cons.mp hcp2 with rfl | hcp2
          · decide
          · exact (isDigitCh_ne (hdig c hcp2)).2.2.2.1
    have hsp : splitAtFirst ':' (host ++ ':' :: p) = (host, some p) :=
      splitAtFirst_append p (fun c hc => (isHostCh_ne (hhost c hc)).2.2.2.1)
    have hsp1 : (splitAtFirst ':' (host ++ ':' :: p)).1 = host := by rw [hsp]
    have hsp2 : (splitAtFirst ':' (host ++ ':' :: p)).2 = some p := by rw [hsp]
    have hpne : p ≠ [] := by
      intro hx
      subst hx
      exact absurd hcp (by decide)
    have hpp : parsePort sch (some p) = some (some p) := by
      rw [parsePort, if_neg hpne, if_pos hd, hcp, if_neg hnedef]
    rw [parseHostPort, if_neg hat, hsp1, if_neg (by simp [hne, hchars]), hsp2, hpp]
    show some (List.map lowerCh host, some p) = some (host, some p)
    rw [hlower]

theorem parseParams_joinParams : ∀ {q : List (JStr × JStr)},
    (∀ kv ∈ q, kv.1.all isQueryCh = true
      ∧ kv.2.all (fun c => isQueryCh c || c = '=') = true) →
    parseParams (joinParams q) = q := by
  intro q
  induction q with
  | nil => intro _; rfl
  | cons kv rest ih =>
    intro h
    obtain ⟨hk, hv⟩ := h kv (List.mem_cons_self _ _)
    obtain ⟨k, v⟩ := kv
    have hkq : ∀ c ∈ k, isQueryCh c = true := List.all_eq_true.mp hk
    have hkne : ∀ c ∈ k, c ≠ '=' := fun c hc => (isQueryCh_ne (hkq c hc)).2.2.2.1
    have hpair : pairOfSegment (k ++ '=' :: v) = (k, v) := by
      have hs : splitAtFirst '=' (k ++ '=' :: v) = (k, some v) := splitAtFirst_append v hkne
      simp only [pairOfSegment, hs]
    have hnoamp : ∀ c ∈ k ++ '=' :: v, c ≠ '&' := by
      intro c hc
      rcases List.mem_append.mp hc with hck | hcv
      · exact (isQueryCh_ne (hkq c hck)).2.2.1
      · rcases List.mem_cons.mp hcv with rfl | hcv
        · decide
        · have := List.all_eq_true.mp hv c hcv
          simp only [Bool.or_eq_true, decide_eq_true_eq] at this
          rcases this with hq | he
          · exact (isQueryCh_ne hq).2.2.1
          · subst he; decide
    have hne2 : (k ++ '=' :: v) ≠ [] := by cases k <;> simp
    cases rest with
    | nil =>
      show parseParams (k ++ '=' :: v) = [(k, v)]
      rw [parseParams, splitAll_not_mem hnoamp]
      have hfil : ([k ++ '=' :: v].filter (fun s => !s.isEmpty)) = [k ++ '=' :: v] := by
        simp [hne2]
      rw [hfil, List.map_cons, List.map_nil, hpair]
    | cons kv2 rest2 =>
      show parseParams ((k ++ '=' :: v) ++ '&' :: joinParams (kv2 :: rest2))
        = (k, v) :: kv2 :: rest2
      rw [parseParams, splitAll_append _ hnoamp, List.filter_cons,
        if_pos (by simp [hne2]), List.map_cons, hpair, ← parseParams,
        ih (fun z hz => h z (List.mem_cons_of_mem _ hz))]

theorem portPart_chars {v : URLRec} (hinv : URLInv v) :
    ∀ c ∈ portPart v.port, c = ':' ∨ isDigitCh c = true := by
  cases hp : v.port with
  | none => intro c hc; cases hc
  | some p =>
    obtain ⟨hd, -, -⟩ := hinv.portInv p hp
    intro c hc
    simp only [portPart] at hc
    rcases List.mem_cons.mp hc with rfl | hc
    · exact Or.inl rfl
    · exact Or.inr (List.all_eq_true.mp hd c hc)

theorem auth_chars {v : URLRec} (hinv : URLInv v) :
    ∀ c ∈ v.host ++ portPart v.port, c ≠ '#' ∧ c ≠ '?' ∧ c ≠ '/' := by
  intro c hc
  rcases List.mem_append.mp hc with hch | hcp
  · have h3 := isHostCh_ne (List.all_eq_true.mp hinv.hostChars c hch)
    exact ⟨h3.1, h3.2.1, h3.2.2.1⟩
  · rcases portPart_chars hinv c hcp with rfl | hd
    · exact ⟨by decide, by decide, by decide⟩
    · have h3 := isDigitCh_ne hd
      exact ⟨h3.1, h3.2.1, h3.2.2.1⟩

theorem queryPart_chars {v : URLRec} (hinv : URLInv v) :
    ∀ c ∈ queryPart v.query, c ≠ '#' ∧ c ≠ '/' ∧ wsCh c = false := by
  cases hq : v.query with
  | nil => intro c hc; cases hc
  | cons kv rest =>
    have hqc := hinv.queryChars
    rw [hq] at hqc
    intro c hc
    simp only [queryPart] at hc
    rcases List.mem_cons.mp hc with rfl | hcj
    · exact ⟨by decide, by decide, by decide⟩
    · have h3 := joinParams_chars hqc c hcj
      simp only [Bool.or_eq_true, decide_eq_true_eq] at h3
      rcases h3 with (hq3 | he) | he
      · exact ⟨(isQueryCh_ne hq3).1, (isQueryCh_ne hq3).2.1, (isQueryCh_ne hq3).2.2.2.2⟩
      · subst he; exact ⟨by decide, by decide, by decide⟩
      · subst he; exact ⟨by decide, by decide, by decide⟩

theorem parseURL_build_bare {v : URLRec} (hinv : URLInv v) (hp : v.path = ['/'])
    (hq : v.query = []) :
    parseURL (schemeChars v.scheme ++ ':' ::
      ('/' :: '/' :: (v.host ++ portPart v.port))) = some v := by
  have hauth := auth_chars hinv
  have hsp : splitAtFirst ':' (schemeChars v.scheme ++ ':' ::
      ('/' :: '/' :: (v.host ++ portPart v.port)))
      = (schemeChars v.scheme, some ('/' :: '/' :: (v.host ++ portPart v.port))) :=
    splitAtFirst_append _ (schemeChars_no_colon _)
  have hsp1 : (splitAtFirst ':' (schemeChars v.scheme ++ ':' ::
      ('/' :: '/' :: (v.host ++ portPart v.port)))).1 = schemeChars v.scheme := by rw [hsp]
  have hsp2 : (splitAtFirst ':' (schemeChars v.scheme ++ ':' ::
      ('/' :: '/' :: (v.host ++ portPart v.port)))).2
      = some ('/' :: '/' :: (v.host ++ portPart v.port)) := by rw [hsp]
  rw [parseURL, hsp1, hsp2]
  simp only [parseRest]
  rw [if_pos ⟨trivial, trivial⟩, schemeOfChars_schemeChars]
  show parseBody v.scheme (v.host ++ portPart v.port) = some v
  rw [parseBody]
  have hhash : splitAtFirst '#' (v.host ++ portPart v.port)
      = (v.host ++ portPart v.port, none) :=
    splitAtFirst_not_mem (fun c hc => (hauth c hc).1)
  have hh1 : (splitAtFirst '#' (v.host ++ portPart v.port)).1
      = v.host ++ portPart v.port := by rw [hhash]
  rw [hh1]
  have hque : splitAtFirst '?' (v.host ++ portPart v.port)
      = (v.host ++ portPart v.port, none) :=
    splitAtFirst_not_mem (fun c hc => (hauth c hc).2.1)
  have hq1 : (splitAtFirst '?' (v.host ++ portPart v.port)).1
      = v.host ++ portPart v.port := by rw [hque]
  have hq2 : (splitAtFirst '?' (v.host ++ portPart v.port)).2 = none := by rw [hque]
  rw [hq1, hq2]
  have hsl : splitAtFirst '/' (v.host ++ portPart v.port)
      = (v.host ++ portPart v.port, none) :=
    splitAtFirst_not_mem (fun c hc => (hauth c hc).2.2)
  have hl1 : (splitAtFirst '/' (v.host ++ portPart v.port)).1
      = v.host ++ portPart v.port := by rw [hsl]
  have hl2 : (splitAtFirst '/' (v.host ++ portPart v.port)).2 = none := by rw [hsl]
  rw [hl1, hl2]
  rw [parseHostPort_build hinv.hostNe hinv.hostChars hinv.hostLower hinv.portInv]
  simp only [parseWithHost]
  rw [if_neg (by decide)]
  show some (⟨v.scheme, v.host, v.port, parsePath none, []⟩ : URLRec) = some v
  rw [show parsePath none = ['/'] from rfl, ← hp, ← hq]

theorem parseURL_build_full {v : URLRec} (hinv : URLInv v) :
    parseURL (schemeChars v.scheme ++ ':' ::
      ('/' :: '/' :: (v.host ++ portPart v.port ++ v.path ++ queryPart v.query)))
      = some v := by
  obtain ⟨t, ht⟩ := hinv.pathHead
  have hauth := auth_chars hinv
  have hpathc : ∀ c ∈ v.path, c ≠ '#' ∧ c ≠ '?' := by
    intro c hc
    have h3 := isPathCh_ne (List.all_eq_true.mp hinv.pathChars c hc)
    exact ⟨h3.1, h3.2.1⟩
  have hap_hash : ∀ c ∈ v.host ++ portPart v.port ++ v.path, c ≠ '#' := by
    intro c hc
    rcases List.mem_append.mp hc with h1 | h2
    · exact (hauth c h1).1
    · exact (hpathc c h2).1
  have hap_que : ∀ c ∈ v.host ++ portPart v.port ++ v.path, c ≠ '?' := by
    intro c hc
    rcases List.mem_append.mp hc with h1 | h2
    · exact (hauth c h1).2.1
    · exact (hpathc c h2).2
  have hslash : splitAtFirst '/' (v.host ++ portPart v.port ++ v.path)
      = (v.host ++ portPart v.port, some t) := by
    rw [ht]
    exact splitAtFirst_append t (fun c hc => (hauth c hc).2.2)
  have hl1 : (splitAtFirst '/' (v.host ++ portPart v.port ++ v.path)).1
      = v.host ++ portPart v.port := by rw [hslash]
  have hl2 : (splitAtFirst '/' (v.host ++ portPart v.port ++ v.path)).2
      = some t := by rw [hslash]
  have hpt : (parsePath (some t)).all isPathCh = true := by
    rw [show parsePath (some t) = '/' :: t from rfl, ← ht]
    exact hinv.pathChars
  cases hq0 : v.query with
  | nil =>
    simp only [queryPart, List.append_nil]
    have hsp : splitAtFirst ':' (schemeChars v.scheme ++ ':' ::
        ('/' :: '/' :: (v.host ++ portPart v.port ++ v.path)))
        = (schemeChars v.scheme, some ('/' :: '/' :: (v.host ++ portPart v.port ++ v.path))) :=
      splitAtFirst_append _ (schemeChars_no_colon _)
    have hsp1 : (splitAtFirst ':' (schemeChars v.scheme ++ ':' ::
        ('/' :: '/' :: (v.host ++ portPart v.port ++ v.path)))).1
        = schemeChars v.scheme := by rw [hsp]
    have hsp2 : (splitAtFirst ':' (schemeChars v.scheme ++ ':' ::
        ('/' :: '/' :: (v.host ++ portPart v.port ++ v.path)))).2
        = some ('/' :: '/' :: (v.host ++ portPart v.port ++ v.path)) := by rw [hsp]
    rw [parseURL, hsp1, hsp2]
    simp only [parseRest]
    rw [if_pos ⟨trivial, trivial⟩, schemeOfChars_schemeChars]
    show parseBody v.scheme (v.host ++ portPart v.port ++ v.path) = some v
    rw [parseBody]
    have hhash : splitAtFirst '#' (v.host ++ portPart v.port ++ v.path)
        = (v.host ++ portPart v.port ++ v.path, none) :=
      splitAtFirst_not_mem hap_hash
    have hh1 : (splitAtFirst '#' (v.host ++ portPart v.port ++ v.path)).1
        = v.host ++ portPart v.port ++ v.path := by rw [hhash]
    rw [hh1]
    have hque : splitAtFirst '?' (v.host ++ portPart v.port ++ v.path)
        = (v.host ++ portPart v.port ++ v.path, none) :=
      splitAtFirst_not_mem hap_que
    have hq1 : (splitAtFirst '?' (v.host ++ portPart v.port ++ v.path)).1
        = v.host ++ portPart v.port ++ v.path := by rw [hque]
    have hq2 : (splitAtFirst '?' (v.host ++ portPart v.port ++ v.path)).2 = none := by
      rw [hque]
    rw [hq1, hq2, hl1, hl2]
    rw [parseHostPort_build hinv.hostNe hinv.hostChars hinv.hostLower hinv.portInv]
    simp only [parseWithHost]
    rw [if_neg (by simp [hpt])]
    show some (⟨v.scheme, v.host, v.port, parsePath (some t), []⟩ : URLRec) = some v
    rw [show parsePath (some t) = '/' :: t from rfl, ← ht, ← hq0]
  | cons kv rest =>
    have hqc := hinv.queryChars
    rw [hq0] at hqc
    simp only [queryPart]
    have hjq := joinParams_chars hqc
    have hsp : splitAtFirst ':' (schemeChars v.scheme ++ ':' ::
        ('/' :: '/' :: (v.host ++ portPart v.port ++ v.path ++ '?' :: joinParams (kv :: rest))))
        = (schemeChars v.scheme, some ('/' :: '/' ::
          (v.host ++ portPart v.port ++ v.path ++ '?' :: joinParams (kv :: rest)))) :=
      splitAtFirst_append _ (schemeChars_no_colon _)
    have hsp1 : (splitAtFirst ':' (schemeChars v.scheme ++ ':' ::
        ('/' :: '/' :: (v.host ++ portPart v.port ++ v.path
          ++ '?' :: joinParams (kv :: rest))))).1 = schemeChars v.scheme := by rw [hsp]
    have hsp2 : (splitAtFirst ':' (schemeChars v.scheme ++ ':' ::
        ('/' :: '/' :: (v.host ++ portPart v.port ++ v.path
          ++ '?' :: joinParams (kv :: rest))))).2
        = some ('/' :: '/' :: (v.host ++ portPart v.port ++ v.path
          ++ '?' :: joinParams (kv :: rest))) := by rw [hsp]
    rw [parseURL, hsp1, hsp2]
    simp only [parseRest]
    rw [if_pos ⟨trivial, trivial⟩, schemeOfChars_schemeChars]
    show parseBody v.scheme (v.host ++ portPart v.port ++ v.path
      ++ '?' :: joinParams (kv :: rest)) = some v
    rw [parseBody]
    have hhash : splitAtFirst '#' (v.host ++ portPart v.port ++ v.path
        ++ '?' :: joinParams (kv :: rest))
        = (v.host ++ portPart v.port ++ v.path ++ '?' :: joinParams (kv :: rest), none) := by
      refine splitAtFirst_not_mem ?_
      intro c hc
      rcases List.mem_append.mp hc with h1 | h2
      · exact hap_hash c h1
      · rcases List.mem_cons.mp h2 with rfl | h2
        · decide
        · have h3 := hjq c h2
          simp only [Bool.or_eq_true, decide_eq_true_eq] at h3
          rcases h3 with (hq3 | he) | he
          · exact (isQueryCh_ne hq3).1
          · subst he; decide
          · subst he; decide
    have hh1 : (splitAtFirst '#' (v.host ++ portPart v.port ++ v.path
        ++ '?' :: joinParams (kv :: rest))).1
        = v.host ++ portPart v.port ++ v.path ++ '?' :: joinParams (kv :: rest) := by
      rw [hhash]
    rw [hh1]
    have hque : splitAtFirst '?' (v.host ++ portPart v.port ++ v.path
        ++ '?' :: joinParams (kv :: rest))
        = (v.host ++ portPart v.port ++ v.path, some (joinParams (kv :: rest))) :=
      splitAtFirst_append _ hap_que
    have hq1 : (splitAtFirst '?' (v.host ++ portPart v.port ++ v.path
        ++ '?' :: joinParams (kv :: rest))).1 = v.host ++ portPart v.port ++ v.path := by
      rw [hque]
    have hq2 : (splitAtFirst '?' (v.host ++ portPart v.port ++ v.path
        ++ '?' :: joinParams (kv :: rest))).2 = some (joinParams (kv :: rest)) := by
      rw [hque]
    rw [hq1, hq2, hl1, hl2]
    rw [parseHostPort_build hinv.hostNe hinv.hostChars hinv.hostLower hinv.portInv]
    have hpq : parseQuery (some (joinParams (kv :: rest))) = some (kv :: rest) := by
      rw [parseQuery]
      rw [if_pos (List.all_eq_true.mpr (fun c hc => by
        have h3 := hjq c hc
        simpa using h3))]
      rw [parseParams_joinParams hqc]
    simp only [parseWithHost]
    rw [if_neg (by simp [hpt])]
    rw [hpq]
    show some (⟨v.scheme, v.host, v.port, parsePath (some t), kv :: rest⟩ : URLRec) = some v
    rw [show parsePath (some t) = '/' :: t from rfl, ← ht, ← hq0]

theorem schemeChars_no_ws (s : UrlScheme) : ∀ c ∈ schemeChars s, wsCh c = false := by
  cases s <;> decide

theorem serialize_no_ws {v : URLRec} (hinv : URLInv v) :
    ∀ c ∈ serializeURL v, wsCh c = false := by
  intro c hc
  rw [serializeURL] at hc
  rcases List.mem_append.mp hc with h1 | hqp
  · rcases List.mem_append.mp h1 with h2 | hpa
    · rcases List.mem_append.mp h2 with h3 | hpp
      · rcases List.mem_append.mp h3 with h4 | hho
        · rcases List.mem_append.mp h4 with hsc | hsep
          · exact schemeChars_no_ws v.scheme c hsc
          · have hsw : ∀ x ∈ strL "://", wsCh x = false := by decide
            exact hsw c hsep
        · exact (isHostCh_ne (List.all_eq_true.mp hinv.hostChars c hho)).2.2.2.2.2
      · rcases portPart_chars hinv c hpp with rfl | hd
        · decide
        · exact (isDigitCh_ne hd).2.2.2.2
    · exact (isPathCh_ne (List.all_eq_true.mp hinv.pathChars c hpa)).2.2
  · exact (queryPart_chars hinv c hqp).2.2

theorem trimList_id {l : JStr} (h : ∀ c ∈ l, wsCh c = false) : trimList l = l := by
  rw [trimList, dropWhile_all_false h,
    dropWhile_all_false (fun c hc => h c (List.mem_reverse.mp hc)), List.reverse_reverse]

theorem dropWhile_slash_reverse {l : JStr} (h : l.getLast? ≠ some '/') :
    (l.reverse.dropWhile (fun c => c = '/')) = l.reverse := by
  cases hl : l.reverse with
  | nil => rfl
  | cons c cs =>
    have hc : c ≠ '/' := by
      intro hx
      subst hx
      apply h
      rw [← List.head?_reverse, hl]
      rfl
    rw [List.dropWhile_cons, if_neg (by simp [hc])]

theorem stripTrail_of_last_ne {l : JStr} (h : l.getLast? ≠ some '/') :
    stripTrailSlashes l = l := by
  rw [stripTrailSlashes, dropWhile_slash_reverse h, List.reverse_reverse]

theorem stripTrail_concat_slash {l : JStr} (h : l.getLast? ≠ some '/') :
    stripTrailSlashes (l ++ ['/']) = l := by
  rw [stripTrailSlashes, List.reverse_append]
  show (('/' :: l.reverse).dropWhile (fun c => c = '/')).reverse = l
  rw [List.dropWhile_cons, if_pos (by simp), dropWhile_slash_reverse h, List.reverse_reverse]

theorem port_ne_nil {v : URLRec} (hinv : URLInv v) {p : JStr} (hp : v.port = some p) :
    p ≠ [] := by
  obtain ⟨-, hcp, -⟩ := hinv.portInv p hp
  intro hx
  subst hx
  exact absurd hcp (by decide)

theorem auth_getLast {v : URLRec} (hinv : URLInv v) :
    (schemeChars v.scheme ++ strL "://" ++ v.host ++ portPart v.port).getLast? ≠ some '/' := by
  cases hp : v.port with
  | none =>
    rw [show portPart none = ([] : JStr) from rfl, List.append_nil]
    rw [List.getLast?_append_of_ne_nil _ hinv.hostNe]
    intro hx
    have hmem := List.mem_of_getLast?_eq_some hx
    have := List.all_eq_true.mp hinv.hostChars _ hmem
    exact absurd this (by decide)
  | some p =>
    have hpne := port_ne_nil hinv hp
    rw [show portPart (some p) = ':' :: p from rfl]
    have hppne : (':' :: p) ≠ ([] : JStr) := by simp
    rw [List.getLast?_append_of_ne_nil _ hppne]
    cases p with
    | nil => exact absurd rfl hpne
    | cons d ds =>
      rw [List.getLast?_cons_cons]
      intro hx
      have hmem := List.mem_of_getLast?_eq_some hx
      obtain ⟨hd, -, -⟩ := hinv.portInv (d :: ds) hp
      have := List.all_eq_true.mp hd _ hmem
      exact absurd this (by decide)

theorem serialize_getLast_full {v : URLRec} (hinv : URLInv v)
    (hnb : ¬(v.path = ['/'] ∧ v.query = [])) :
    (serializeURL v).getLast? ≠ some '/' := by
  rw [serializeURL]
  cases hq0 : v.query with
  | cons kv rest =>
    have hqpc := queryPart_chars hinv
    rw [hq0] at hqpc
    have hqpne : queryPart (kv :: rest) ≠ [] := by simp [queryPart]
    rw [List.getLast?_append_of_ne_nil _ hqpne]
    intro hx
    have hmem := List.mem_of_getLast?_eq_some hx
    exact (hqpc '/' hmem).2.1 rfl
  | nil =>
    have hpne2 : v.path ≠ ['/'] := fun hx => hnb ⟨hx, hq0⟩
    rw [show queryPart ([] : List (JStr × JStr)) = ([] : JStr) from rfl, List.append_nil]
    obtain ⟨t, ht⟩ := hinv.pathHead
    have hpathne : v.path ≠ [] := by rw [ht]; simp
    rw [List.getLast?_append_of_ne_nil _ hpathne]
    rcases hinv.pathLast with he | hne2
    · exact absurd he hpne2
    · exact hne2

theorem serializeURL_assoc (v : URLRec) :
    serializeURL v = schemeChars v.scheme ++ ':' ::
      ('/' :: '/' :: (v.host ++ portPart v.port ++ v.path ++ queryPart v.query)) := by
  rw [serializeURL]
  simp only [List.append_assoc]
  rfl

theorem serialize_hasSchemeSep (v : URLRec) : hasSchemeSep (serializeURL v) = true := by
  rw [serializeURL_assoc]
  have h : schemeChars v.scheme ++ ':' ::
      ('/' :: '/' :: (v.host ++ portPart v.port ++ v.path ++ queryPart v.query))
      = schemeChars v.scheme ++ (strL "://"
        ++ (v.host ++ portPart v.port ++ v.path ++ queryPart v.query)) := rfl
  rw [h]
  exact hasSchemeSep_mid _ _

theorem bare_hasSchemeSep (v : URLRec) :
    hasSchemeSep (schemeChars v.scheme ++ strL "://" ++ v.host ++ portPart v.port) = true := by
  have h : schemeChars v.scheme ++ strL "://" ++ v.host ++ portPart v.port
      = schemeChars v.scheme ++ (strL "://" ++ (v.host ++ portPart v.port)) := by
    simp [List.append_assoc]
  rw [h]
  exact hasSchemeSep_mid _ _

/-- Re-normalizing the serialization of a canonical URL record is the identity. -/
theorem normalize_canon {v : URLRec} (hinv : URLInv v) :
    normalizeRelayUrl (some (serializeURL v)) = some (serializeURL v) := by
  have hparse : parseURL (preprocessUrl (serializeURL v)) = some v := by
    by_cases hb : v.path = ['/'] ∧ v.query = []
    · obtain ⟨hp, hq⟩ := hb
      have hser : serializeURL v
          = (schemeChars v.scheme ++ strL "://" ++ v.host ++ portPart v.port) ++ ['/'] := by
        rw [serializeURL, hp, hq]
        rw [show queryPart ([] : List (JStr × JStr)) = ([] : JStr) from rfl, List.append_nil]
      rw [preprocessUrl, trimList_id (serialize_no_ws hinv)]
      rw [hser, stripTrail_concat_slash (auth_getLast hinv)]
      rw [addScheme, if_pos (bare_hasSchemeSep v)]
      have hA : schemeChars v.scheme ++ strL "://" ++ v.host ++ portPart v.port
          = schemeChars v.scheme ++ ':' :: ('/' :: '/' :: (v.host ++ portPart v.port)) := by
        simp only [List.append_assoc]
        rfl
      rw [hA]
      exact parseURL_build_bare hinv hp hq
    · rw [preprocessUrl, trimList_id (serialize_no_ws hinv),
        stripTrail_of_last_ne (serialize_getLast_full hinv hb),
        addScheme, if_pos (serialize_hasSchemeSep v), serializeURL_assoc]
      exact parseURL_build_full hinv
  simp only [normalizeRelayUrl]
  rw [if_neg (serializeURL_ne_nil v), hparse]
  show some (serializeURL (fixURL v)) = some (serializeURL v)
  rw [fixURL_id hinv]

/-- C4: relay address normalization is idempotent — whenever `normalizeRelayUrl`
returns a non-null canonical address for an input string, applying it again to
that result returns the same string, i.e. normalize(normalize(x)) = normalize(x). -/
theorem C4_normalize_idempotent {s t : JStr}
    (h : normalizeRelayUrl (some s) = some t) :
    normalizeRelayUrl (some t) = some t := by
  simp only [normalizeRelayUrl] at h
  split at h
  · cases h
  · cases hu : parseURL (preprocessUrl s) with
    | none => rw [hu] at h; exact Option.noConfusion h
    | some u =>
      rw [hu] at h
      replace h : some (serializeURL (fixURL u)) = some t := h
      injection h with h1
      subst h1
      exact normalize_canon (parse_fix_inv hu)

/-- Witness: a concrete non-canonical input normalizes to a canonical address,
and C4 applied there shows re-normalizing that address is the identity. -/
theorem C4_normalize_idempotent_witness :
    normalizeRelayUrl (some (strL "wss://Example.COM:8080//a/b?b=2&a=1#f"))
      = some (strL "wss://example.com:8080/a/b?a=1&b=2")
    ∧ normalizeRelayUrl (some (strL "wss://example.com:8080/a/b?a=1&b=2"))
      = some (strL "wss://example.com:8080/a/b?a=1&b=2") :=
  ⟨by decide, @C4_normalize_idempotent (strL "wss://Example.COM:8080//a/b?b=2&a=1#f")
    (strL "wss://example.com:8080/a/b?a=1&b=2") (by decide)⟩
